import Mathlib

/-!
Verification development for the `scan` library: a type-mapping and two-phase
binding engine that maps tabular query results (named columns plus per-row
values) onto typed destinations.

The definitions below are a shallow embedding of the Go source:

* `Row` and its methods model `row.go` (`wrapRows`, `ScheduleScanByNameX`,
  `scanCurrentRow`, `createTargets`);
* `Values` models the recording-based variant in `values.go`
  (`findMissingColumns`, `stopRecording`);
* `GoStruct`/`GoField` and `setMappings`/`getMapping`/`filterColumns` model the
  reflective struct introspection in `mapper_struct.go`;
* `GoVal`, `Store`, `regularBefore`/`regularAfter`/`allOptionsAfter` model the
  two-phase struct binder (`regular[T].regular` and `regular[T].allOptions`),
  with Go's in-place writes through addresses rendered as explicit state
  passing over a cell store;
* `runBefores`/`runAfters` model the mod-composition combinator `Mod` in
  `mod.go`;
* `singleColumnBefore`/`singleColumnAfter` model `SingleColumnMapper` in
  `mapper.go`.

Go maps are rendered as association lists or functions, Go slices as lists,
`reflect.Value` destinations as addresses `(cell, field path)` into a store,
and errors as an explicit `Except`.  A `MappingError` is compared by its
ordered string metadata (the `meta` field in the source); the wrapped cause is
used only for display and is omitted here.
-/

namespace Scan

/-- Errors of the engine: a structured mapping error carrying ordered string
metadata (modelling `MappingError.meta`, which is what the library's tests
compare), or an opaque error from the external row source. -/
inductive GoError where
  | mapping (meta : List String)
  | external (msg : String)
deriving DecidableEq, Repr

/-! ## Row: the per-query binding context (`row.go`) -/

/-- Model of `Row`: the per-query mutable context.  `scanDestinations` has one
slot per column; `none` models the unset `reflect.Value` zero value.  The slot
payload type `D` abstracts over what a scheduled destination is (the struct
binder instantiates it with an address into a value store). -/
structure Row (D : Type) where
  columns : List String
  scanDestinations : List (Option D)
  unknownDestinations : List String
  allowUnknown : Bool
deriving Repr

/-- Model of `wrapRows`: fresh context with one unset slot per column. -/
def wrapRows (D : Type) (cols : List String) (allowUnknown : Bool) : Row D :=
  { columns := cols
    scanDestinations := List.replicate cols.length none
    unknownDestinations := []
    allowUnknown := allowUnknown }

/-- Index of the first column with the given name (the search loop in
`ScheduleScanByNameX`). -/
def findColIdx (cols : List String) (colName : String) : Option Nat :=
  match cols with
  | [] => none
  | c :: rest =>
    if c = colName then some 0 else (findColIdx rest colName).map (· + 1)

/-- Model of `Row.ScheduleScanByNameX`: linear search for the first column with
the given name; on a hit the slot is overwritten, on a miss the name is
appended to `unknownDestinations`. -/
def Row.scheduleScanByNameX {D : Type} (r : Row D) (colName : String) (val : D) : Row D :=
  match findColIdx r.columns colName with
  | some i => { r with scanDestinations := r.scanDestinations.set i (some val) }
  | none => { r with unknownDestinations := r.unknownDestinations ++ [colName] }

/-- Helper for `Row.createTargets`: walks columns in order paired with their
destination slots.  A `none` target models the discard placeholder
`new(any)` used when unknown columns are allowed. -/
def createTargetsGo {D : Type} (allowUnknown : Bool) :
    List String → List (Option D) → Except GoError (List (Option D))
  | [], _ => .ok []
  | name :: names, dests =>
    match dests.headD none with
    | some d =>
      match createTargetsGo allowUnknown names dests.tail with
      | .error e => .error e
      | .ok ts => .ok (some d :: ts)
    | none =>
      if !allowUnknown then
        .error (.mapping ["no destination", name])
      else
        match createTargetsGo allowUnknown names dests.tail with
        | .error e => .error e
        | .ok ts => .ok (none :: ts)

/-- Model of `Row.createTargets`: for each column in order take the scheduled
destination; an unset slot is an error (metadata `["no destination", name]`,
stopping at the first such column) unless unknown columns are allowed, in
which case a discard placeholder is used. -/
def Row.createTargets {D : Type} (r : Row D) : Except GoError (List (Option D)) :=
  createTargetsGo r.allowUnknown r.columns r.scanDestinations

/-- Model of `Row.scanCurrentRow`: fail on any recorded unknown destination
(metadata = all recorded names, checked before the unknown-column policy);
otherwise build targets, run the external scan, and clear all destination
slots back to unset.  The external `Rows.Scan` collaborator is a parameter
returning `none` on success. -/
def Row.scanCurrentRow {D : Type} (r : Row D)
    (scan : List (Option D) → Option String) : Except GoError (Row D) :=
  if r.unknownDestinations.length > 0 then
    .error (.mapping r.unknownDestinations)
  else
    match r.createTargets with
    | .error e => .error e
    | .ok targets =>
      match scan targets with
      | some msg => .error (.external msg)
      | none => .ok { r with scanDestinations := List.replicate r.columns.length none }

/-! ## Values: the recording-based variant (`values.go`) -/

/-- Model of `Values`: `columns` is the `map[string]int` from column name to
index (association list, unique keys), `types` the set of names recorded
during the recording phase (unique). -/
structure Values where
  columns : List (String × Nat)
  recording : Bool
  types : List String
  allowUnknown : Bool
deriving Repr

/-- Insert-or-update for the name-to-index map built by `newValues`. -/
def upsertCol : List (String × Nat) → String → Nat → List (String × Nat)
  | [], n, i => [(n, i)]
  | (k, v) :: rest, n, i =>
    if k = n then (k, i) :: rest else (k, v) :: upsertCol rest n i

/-- Model of the `colMap` construction in `newValues`: for duplicate column
names only the last index remains. -/
def newValuesColumns (cols : List String) : List (String × Nat) :=
  (cols.enum).foldl (fun m p => upsertCol m p.2 p.1) []

/-- Model of `Values.findMissingColumns`: write each unrecorded column name
into an array at its column index (preserving query order), then drop the
empty slots.  (Go's map iteration order does not matter because all written
indices are distinct.) -/
def Values.findMissingColumns (v : Values) : List String :=
  let cols0 : List String := List.replicate v.columns.length ""
  let written := v.columns.foldl
    (fun arr p => if v.types.contains p.1 then arr else arr.set p.2 p.1) cols0
  written.filter (fun s => s ≠ "")

/-- Model of `Values.stopRecording`: when unknown columns are disallowed and
not every column was recorded, fail with metadata `"no destination"` followed
by every missing column. -/
def Values.stopRecording (v : Values) : Except GoError Values :=
  if !v.allowUnknown && v.types.length ≠ v.columns.length then
    .error (.mapping ("no destination" :: v.findMissingColumns))
  else
    .ok { v with recording := false }

/-! ## Struct introspection (`mapper_struct.go`) -/

/-- Base (pointer-stripped) type of a struct field: a non-struct scalar, or a
struct identified by an index into the type environment. -/
inductive FieldBase where
  | scalar
  | strct (id : Nat)
deriving DecidableEq, Repr

/-- Model of one `reflect.StructField`.  `rawTag` is the value of the
configured struct-tag key (`field.Tag.Get(s.structTagKey)`); `isPtr` says
whether the field's type is a pointer (one level, as in the source's single
`Elem()` step); `base` is the type after stripping that pointer. -/
structure GoField where
  fname : String
  rawTag : String
  exported : Bool
  anonymous : Bool
  isPtr : Bool
  base : FieldBase
deriving DecidableEq, Repr

/-- Model of one struct type: its fields, and whether a pointer to it
implements one of the configured scannable interfaces. -/
structure GoStruct where
  fields : List GoField
  scannable : Bool
deriving DecidableEq, Repr

/-- A type environment: struct ids index into this list. -/
abbrev Env := List GoStruct

/-- The visited-map key: a `reflect.Type`, i.e. a struct id together with
whether it is wrapped in a pointer (Go keys the counter by the un-stripped
type, so `T` and `*T` count separately). -/
abbrev TypeRef := Bool × Nat

/-- Configuration of a `mapperSourceImpl`: column separator, field-name
mapping function, and traversal depth limit. -/
structure MapperCfg where
  columnSeparator : String
  fieldMapperFn : String → String
  maxDepth : Nat

/-- Model of `tag := strings.Split(field.Tag.Get(key), ",")[0]`: the part of
the raw tag before the first comma (the whole tag when it has no comma). -/
def tagOf (f : GoField) : String :=
  ⟨f.rawTag.data.takeWhile (fun c => c ≠ ',')⟩

/-- Model of `mapinfo`: one bindable leaf (column name, field-access path,
pointer-initialization chain, leaf pointer-ness). -/
structure MapInfo where
  name : String
  position : List Nat
  init : List (List Nat)
  isPointer : Bool
deriving DecidableEq, Repr

/-- Column names of a mapping, as in `mapping.cols()`. -/
def mapCols (m : List MapInfo) : List String :=
  m.map (fun info => info.name)

/-- Struct looked up for a type reference (out-of-range ids behave as empty,
non-scannable structs; they can only arise from malformed environments). -/
def structOf (env : Env) (id : Nat) : GoStruct :=
  (env.get? id).getD ⟨[], false⟩

/-- One step of the per-traversal visit counter: `v[typ] = count + 1`. -/
def bumpVisit (v : TypeRef → Nat) (tref : TypeRef) : TypeRef → Nat :=
  fun t => if t = tref then v tref + 1 else v t

mutual

/-- Model of `mapperSourceImpl.setMappings`.  `fuel` only makes the recursion
structurally terminating in Lean; `setMappings_isSome_of_fuel` (claim C5)
shows it is never exhausted from `getMapping`'s fuel.  The visit counter `v`
is keyed by the un-stripped type (`TypeRef`); once a type has been visited
more than `maxDepth` times along the current path the branch ends silently.
A scannable type, or one without any usable field, becomes a single leaf at
the current name. -/
def setMappings (env : Env) (cfg : MapperCfg) :
    Nat → TypeRef → String → (TypeRef → Nat) → List MapInfo → List (List Nat) → List Nat →
    Option (List MapInfo)
  | 0, _, _, _, _, _, _ => none
  | fuel + 1, tref, pfx, v, m, inits, position =>
    if v tref > cfg.maxDepth then
      some m
    else
      let v' := bumpVisit v tref
      let isPointer := tref.1
      let st := structOf env tref.2
      if st.scannable then
        some (m ++ [⟨pfx, position, inits, isPointer⟩])
      else
        match goFields env cfg fuel st.fields 0 pfx v' m inits position false with
        | none => none
        | some (m', hasExported) =>
          if hasExported then some m'
          else some (m' ++ [⟨pfx, position, inits, isPointer⟩])
termination_by fuel _ _ _ _ _ _ => (fuel, 0)

/-- Model of the field loop inside `setMappings`: unexported fields and fields
tagged `"-"` are skipped; an anonymous field keeps the current name prefix,
a named field appends separator (when the prefix is non-empty) and the mapped
tag-or-identifier; a pointer field records its own index in the init chain
(note the source mutates `inits` in place, so later fields in the same struct
see it too); struct fields recurse with a copy of the visit map. -/
def goFields (env : Env) (cfg : MapperCfg) :
    Nat → List GoField → Nat → String → (TypeRef → Nat) → List MapInfo → List (List Nat) →
    List Nat → Bool → Option (List MapInfo × Bool)
  | _, [], _, _, _, m, _, _, hasExported => some (m, hasExported)
  | fuel, field :: rest, i, pfx, v, m, inits, position, hasExported =>
    if !field.exported || tagOf field = "-" then
      goFields env cfg fuel rest (i + 1) pfx v m inits position hasExported
    else
      let key :=
        if field.anonymous then pfx
        else
          let sep := if pfx ≠ "" then cfg.columnSeparator else ""
          let nm := if tagOf field ≠ "" then tagOf field else field.fname
          pfx ++ sep ++ cfg.fieldMapperFn nm
      let currentIndex := position ++ [i]
      let inits' := if field.isPtr then inits ++ [currentIndex] else inits
      match field.base with
      | .strct id' =>
        match setMappings env cfg fuel (field.isPtr, id') key v m inits' currentIndex with
        | none => none
        | some m' => goFields env cfg fuel rest (i + 1) pfx v m' inits' position true
      | .scalar =>
        goFields env cfg fuel rest (i + 1) pfx v
          (m ++ [⟨key, currentIndex, inits', field.isPtr⟩]) inits' position true
termination_by fuel flds _ _ _ _ _ _ _ => (fuel, flds.length + 1)

end

/-- All type references into an environment (both pointer-nesses). -/
def allRefs (env : Env) : List TypeRef :=
  (List.range env.length).map (fun i => (false, i)) ++
    (List.range env.length).map (fun i => (true, i))

/-- The remaining visit budget of a traversal state: for every type reference,
how many more visits it can take before the depth guard stops descent. -/
def measureOf (env : Env) (cfg : MapperCfg) (v : TypeRef → Nat) : Nat :=
  ((allRefs env).map (fun t => cfg.maxDepth + 1 - v t)).sum

/-- Fuel that `getMapping` hands to `setMappings`: strictly more than the
largest possible remaining visit budget. -/
def bigFuel (env : Env) (cfg : MapperCfg) : Nat :=
  2 * env.length * (cfg.maxDepth + 1) + 1

/-- Model of `mapperSourceImpl.getMapping` (without the cache, whose content
for a given type always equals this pure computation).  The source never
returns an error here; the `getD` fallback is dead code by claim C5. -/
def getMapping (env : Env) (cfg : MapperCfg) (tref : TypeRef) : List MapInfo :=
  (setMappings env cfg (bigFuel env cfg) tref "" (fun _ => 0) [] [] []).getD []

/-- Model of `filterColumns`: walk the query columns in order; with a
configured non-empty tag prefix, skip columns that do not start with it and
strip it from those that do; match the remaining name exactly against the
leaves and re-tag the first hit with the column's real (unstripped) name.
(The Go loop appends to a slice; this recursion builds the same list.) -/
def filterColumns (c : List String) (m : List MapInfo) (pfx : String) : List MapInfo :=
  match c with
  | [] => []
  | name :: rest =>
    let key? :=
      if pfx ≠ "" then
        if pfx.isPrefixOf name then some (name.drop pfx.length) else none
      else some name
    match key? with
    | none => filterColumns rest m pfx
    | some key =>
      match m.find? (fun info => info.name == key) with
      | some info => { info with name := name } :: filterColumns rest m pfx
      | none => filterColumns rest m pfx

/-! ## Runtime values and the two-phase struct binder -/

/-- Model of a Go type as seen by the binder: scalar, pointer, or struct. -/
inductive GoTy where
  | scalarTy
  | ptrTo (t : GoTy)
  | strctTy (id : Nat)
deriving DecidableEq, Repr

/-- The full type of a field (pointer-ness plus base). -/
def fieldTy (f : GoField) : GoTy :=
  let b := match f.base with
    | .scalar => GoTy.scalarTy
    | .strct id => GoTy.strctTy id
  if f.isPtr then .ptrTo b else b

/-- Model of a Go runtime value: scalars carry an integer payload, pointers
are optional (with `none` as `nil`), structs carry their field values. -/
inductive GoVal where
  | scalar (n : Int)
  | ptr (v : Option GoVal)
  | strct (fields : List GoVal)

mutual

/-- Zero value of a type: `0`, `nil`, or a struct of zeroes.  The fuel is a
Lean artifact; any fuel larger than the struct-nesting depth (which is finite
for representable Go types, since recursion needs a pointer) gives the true
zero value. -/
def zeroVal (env : Env) : Nat → GoTy → GoVal
  | _, .scalarTy => .scalar 0
  | _, .ptrTo _ => .ptr none
  | 0, .strctTy _ => .scalar 0
  | fz + 1, .strctTy id => .strct (zeroFields env fz (structOf env id).fields)
termination_by fz _ => (fz, 0)

/-- Zero values of a field list. -/
def zeroFields (env : Env) : Nat → List GoField → List GoVal
  | _, [] => []
  | fz, f :: fs => zeroVal env fz (fieldTy f) :: zeroFields env fz fs
termination_by fz fs => (fz, fs.length + 1)

end

/-- Model of `reflect.Type.FieldByIndex` at the type level: follow the index
path, dereferencing a pointer-to-struct between steps. -/
def typeAt (env : Env) : List Nat → GoTy → Option GoTy
  | [], t => some t
  | i :: p, .strctTy id =>
    match (structOf env id).fields.get? i with
    | none => none
    | some f =>
      match p, fieldTy f with
      | _ :: _, .ptrTo u => typeAt env p u
      | _, ft => typeAt env p ft
  | _ :: _, _ => none

/-- Model of `reflect.Value.FieldByIndex` (read): follow the path through
struct fields, dereferencing a pointer between steps.  Paths through a `nil`
pointer or a non-struct (which panic in Go) return the stuck value. -/
def getPath : List Nat → GoVal → GoVal
  | [], v => v
  | i :: p, .strct fs =>
    let fv := fs.getD i (.scalar 0)
    match p, fv with
    | _ :: _, .ptr (.some u) => getPath p u
    | _, _ => getPath p fv
  | _ :: _, v => v

/-- Write through a `FieldByIndex` path: the functional rendering of taking
the address of a (possibly pointer-nested) field and assigning to it. -/
def setPath : List Nat → GoVal → GoVal → GoVal
  | [], _, w => w
  | i :: p, .strct fs, w =>
    let fv := fs.getD i (.scalar 0)
    let fv' :=
      match p, fv with
      | _ :: _, .ptr (.some u) => GoVal.ptr (.some (setPath p u w))
      | _, _ => setPath p fv w
    .strct (fs.set i fv')
  | _ :: _, v, _ => v

/-- A store of allocated cells: Go's addressable `reflect.Value`s become
explicit cells, and a scan destination is a cell index plus a field path. -/
abbrev Store := List GoVal

/-- A scheduled scan destination: which cell, and which field inside it. -/
abbrev Addr := Nat × List Nat

/-- Is this value a `nil` pointer (`reflect.Value.IsZero` on the pointer
fields walked by the init chains)? -/
def isNilPtr : GoVal → Bool
  | .ptr none => true
  | _ => false

/-- Model of the init loop in `regular`/`allOptions`: for every ancestor path
in the leaf's init chain, if the pointer there is still `nil`, allocate a
fresh zero value of its element type (`pv.Set(reflect.New(pv.Type().Elem()))`). -/
def initPointersAt (env : Env) (fz : Nat) (rootTy : GoTy) (cell : GoVal)
    (inits : List (List Nat)) : GoVal :=
  inits.foldl
    (fun c pth =>
      if isNilPtr (getPath pth c) then
        match typeAt env pth rootTy with
        | some (.ptrTo u) => setPath pth c (.ptr (.some (zeroVal env fz u)))
        | _ => c
      else c)
    cell

/-- Element type of the destination type when it is a pointer (`typ.Elem()`). -/
def elemTyOf (typ : GoTy) : GoTy :=
  match typ with
  | .ptrTo u => u
  | t => t

/-- Model of the bind phase of `regular[T].regular`: allocate one zero value
of the (pointer-stripped) destination type, then for each reconciled leaf run
its pointer-init chain and schedule the address of the leaf field under the
leaf's column name.  The returned `Nat` is the link: the address of the row
cell (the `reflect.Value` the source returns). -/
def regularBefore (env : Env) (fz : Nat) (typ : GoTy) (isPointer : Bool)
    (filtered : List MapInfo) (st : Store) (r : Row Addr) : Store × Row Addr × Nat :=
  let elemTy := if isPointer then elemTyOf typ else typ
  let a := st.length
  let st1 := st ++ [zeroVal env fz elemTy]
  let stepped := filtered.foldl
    (fun (acc : Store × Row Addr) info =>
      let c := acc.1.getD a (.scalar 0)
      let c' := initPointersAt env fz elemTy c info.init
      (acc.1.set a c', acc.2.scheduleScanByNameX info.name (a, info.position)))
    (st1, r)
  (stepped.1, stepped.2, a)

/-- Model of the materialize phase of `regular[T].regular`: return the
populated row value, behind a pointer if the destination type is one. -/
def regularAfter (isPointer : Bool) (a : Nat) (st : Store) : Except GoError GoVal :=
  let row := st.getD a (.scalar 0)
  .ok (if isPointer then .ptr (.some row) else row)

/-- Dereference a scanned scratch pointer (`vals[i].Elem()`). -/
def elemVal : GoVal → GoVal
  | .ptr (.some u) => u
  | v => v

/-- Model of `TypeConverter`: `ConvertType` rewrites a leaf's type before the
scratch cell is allocated; `OriginalValue` recovers the original value from
the scanned substitute. -/
structure TypeConverter where
  convertType : GoTy → GoTy
  originalValue : GoVal → GoVal

/-- Model of `RowValidator`: a predicate over the reconciled column names and
the scanned scratch values (the `reflect.Value` pointers). -/
abbrev RowValidator := List String → List GoVal → Bool

/-- Model of the materialize phase of `regular[T].allOptions`: `scratch` are
the per-leaf scratch pointers after the row scan.  If a validator is
configured and rejects the row, return the destination type's zero value with
no error; otherwise build a fresh row value, running each leaf's init chain,
recovering each leaf value from its scratch cell (through the converter if
one is configured) and writing it at the leaf's path (through the pointer for
a pointer leaf). -/
def allOptionsAfter (env : Env) (fz : Nat) (typ : GoTy) (isPointer : Bool)
    (filtered : List MapInfo) (validator : Option RowValidator)
    (converter : Option TypeConverter) (scratch : List GoVal) : Except GoError GoVal :=
  let rejected :=
    match validator with
    | some rv => !rv (mapCols filtered) scratch
    | none => false
  if rejected then
    .ok (zeroVal env fz typ)
  else
    let elemTy := if isPointer then elemTyOf typ else typ
    let row0 := zeroVal env fz elemTy
    let row := (filtered.enum).foldl
      (fun c p =>
        let info := p.2
        let c1 := initPointersAt env fz elemTy c info.init
        let val0 := elemVal (scratch.getD p.1 (.scalar 0))
        let val :=
          match converter with
          | some cv => cv.originalValue val0
          | none => val0
        if info.isPointer then setPath info.position c1 (.ptr (.some val))
        else setPath info.position c1 val)
      row0
    .ok (if isPointer then .ptr (.some row) else row)

/-- Model of one row of the driver loop (`scanOneRow` plus the external
`Rows.Scan` writing each column's value through its scheduled destination, in
column order; discard targets are skipped). -/
def applyScan (st : Store) (targets : List (Option Addr)) (vals : List GoVal) : Store :=
  (targets.zip vals).foldl
    (fun s tv =>
      match tv.1 with
      | some ad => s.set ad.1 (setPath ad.2 (s.getD ad.1 (.scalar 0)) tv.2)
      | none => s)
    st

/-- Run one row end to end: bind phase, the unknown-destination check and
target construction of `scanCurrentRow`, the external scan (assumed to
succeed, writing `vals` in column order), then the materialize phase. -/
def runRow {L : Type} (cols : List String) (vals : List GoVal) (allowUnknown : Bool)
    (before : Store → Row Addr → Except GoError (Store × Row Addr × L))
    (after : L → Store → Except GoError GoVal) : Except GoError GoVal :=
  match before [] (wrapRows Addr cols allowUnknown) with
  | .error e => .error e
  | .ok (st, r1, link) =>
    if r1.unknownDestinations.length > 0 then
      .error (.mapping r1.unknownDestinations)
    else
      match r1.createTargets with
      | .error e => .error e
      | .ok targets => after link (applyScan st targets vals)

/-- The `regular` struct mapper run on one row: reconcile the mapping against
the columns (as `mapperFromMapping` does), bind, scan, materialize. -/
def structRegularRun (env : Env) (fz : Nat) (typ : GoTy) (isPointer : Bool)
    (m : List MapInfo) (tagPfx : String) (cols : List String) (vals : List GoVal)
    (allowUnknown : Bool) : Except GoError GoVal :=
  let filtered := filterColumns cols m tagPfx
  runRow cols vals allowUnknown
    (fun st r => .ok (regularBefore env fz typ isPointer filtered st r))
    (fun a st => regularAfter isPointer a st)

/-! ## `SingleColumnMapper` (`mapper.go`) -/

/-- Metadata of the wrong-column-count error raised through `ErrorMapper`. -/
def wrongCountMeta (n : Nat) : List String :=
  ["wrong column count", "1", toString n]

/-- Model of the bind phase of `SingleColumnMapper`: with a column count other
than one, both phases are the `ErrorMapper` pair; otherwise allocate the
scratch value `t` and schedule the single column into it.  The link is the
scratch address (`&t`). -/
def singleColumnBefore (c : List String) (st : Store) (r : Row Addr) :
    Except GoError (Store × Row Addr × Nat) :=
  if c.length ≠ 1 then
    .error (.mapping (wrongCountMeta c.length))
  else
    let a := st.length
    .ok (st ++ [.scalar 0], r.scheduleScanByNameX (c.headD "") (a, []), a)

/-- Model of the materialize phase of `SingleColumnMapper`: the same error for
a wrong column count, otherwise the scanned scratch value (`*(v.(*T))`). -/
def singleColumnAfter (c : List String) (a : Nat) (st : Store) : Except GoError GoVal :=
  if c.length ≠ 1 then
    .error (.mapping (wrongCountMeta c.length))
  else
    .ok (st.getD a (.scalar 0))

/-! ## Mod composition (`mod.go`) -/

/-- Run the mods' bind phases in registration order over an abstract state
`S`, collecting each mod's link in order; the first error short-circuits.
This models the loop `for i, b := range befores` in `Mod`. -/
def runBefores {S A E : Type} : List (S → Except E (S × A)) → S → Except E (S × List A)
  | [], s => .ok (s, [])
  | b :: bs, s =>
    match b s with
    | .error e => .error e
    | .ok p =>
      match runBefores bs p.1 with
      | .error e => .error e
      | .ok q => .ok (q.1, p.2 :: q.2)

/-- Model of the composed bind phase built by `Mod`: base bind first (its
error is returned unchanged), then the mods' binds in order. The caller gets
the base link; the mod links are the closure state shared with the composed
materialize phase. -/
def modBefore {S A E : Type} (base : S → Except E (S × A))
    (mods : List (S → Except E (S × A))) (s : S) : Except E (S × A × List A) :=
  match base s with
  | .error e => .error e
  | .ok (s1, a) =>
    match runBefores mods s1 with
    | .error e => .error e
    | .ok (s2, ls) => .ok (s2, a, ls)

/-- Run the mods' materialize steps in order, each with its stored link and
the current value; a mod's in-place mutation is rendered as returning the
updated value, so each mod observes the mutations of all earlier mods.  The
first error short-circuits. -/
def runAfters {A T E : Type} : List (A → T → Except E T) → List A → T → Except E T
  | [], _, t => .ok t
  | _ :: _, [], t => .ok t
  | f :: fs, l :: ls, t =>
    match f l t with
    | .error e => .error e
    | .ok t' => runAfters fs ls t'

/-- Model of the composed materialize phase built by `Mod`: base materialize
first (its error is returned unchanged), then the mods' materialize steps in
order with their stored links. -/
def modAfter {A T E : Type} (base : A → Except E T)
    (mods : List (A → T → Except E T)) (links : List A) (a : A) : Except E T :=
  match base a with
  | .error e => .error e
  | .ok t => runAfters mods links t

/-! ## Basic lemmas about the binding context -/

theorem findColIdx_eq_none_iff (cols : List String) (name : String) :
    findColIdx cols name = none ↔ name ∉ cols := by
  induction cols with
  | nil => simp [findColIdx]
  | cons c rest ih =>
    by_cases h : c = name
    · simp [findColIdx, h]
    · have hne : ¬name = c := fun hn => h hn.symm
      cases hf : findColIdx rest name with
      | none => simp [findColIdx, if_neg h, hf, hne, ih.mp hf]
      | some i =>
        have hmem : name ∈ rest := by
          by_contra hno
          rw [ih.mpr hno] at hf
          exact Option.noConfusion hf
        simp [findColIdx, if_neg h, hf, hmem]

theorem scheduleScanByNameX_columns {D : Type} (r : Row D) (name : String) (v : D) :
    (r.scheduleScanByNameX name v).columns = r.columns := by
  unfold Row.scheduleScanByNameX
  cases findColIdx r.columns name <;> rfl

theorem scheduleScanByNameX_allowUnknown {D : Type} (r : Row D) (name : String) (v : D) :
    (r.scheduleScanByNameX name v).allowUnknown = r.allowUnknown := by
  unfold Row.scheduleScanByNameX
  cases findColIdx r.columns name <;> rfl

theorem scheduleScanByNameX_of_mem {D : Type} (r : Row D) (name : String) (v : D)
    (h : name ∈ r.columns) :
    ∃ i, findColIdx r.columns name = some i ∧
      r.scheduleScanByNameX name v =
        { r with scanDestinations := r.scanDestinations.set i (some v) } := by
  cases hf : findColIdx r.columns name with
  | none => exact absurd ((findColIdx_eq_none_iff _ _).mp hf) (by simp [h])
  | some i =>
    refine ⟨i, rfl, ?_⟩
    unfold Row.scheduleScanByNameX
    rw [hf]

/-!
## Claim C9

Scheduling a scan by a column name that matches none of the query's columns
never fails at schedule time; the row scan then fails listing all recorded
names, regardless of the allow-unknown setting.
-/

/-- Claim C9: scheduling a scan under a name matching no query column leaves
the destination slots untouched and records the name; any subsequent
`scanCurrentRow` fails with a mapping error whose metadata is exactly the
list of all recorded names — independently of the allow-unknown policy,
which only governs query columns without destinations. -/
theorem scheduleScan_unknown_name_recorded {D : Type} (r : Row D) (name : String) (v : D)
    (scan : List (Option D) → Option String) (h : name ∉ r.columns) :
    (r.scheduleScanByNameX name v).scanDestinations = r.scanDestinations ∧
    (r.scheduleScanByNameX name v).unknownDestinations = r.unknownDestinations ++ [name] ∧
    (∀ r' : Row D, r'.unknownDestinations ≠ [] →
      r'.scanCurrentRow scan = .error (.mapping r'.unknownDestinations)) := by
  refine ⟨?_, ?_, ?_⟩
  · unfold Row.scheduleScanByNameX
    rw [(findColIdx_eq_none_iff _ _).mpr h]
  · unfold Row.scheduleScanByNameX
    rw [(findColIdx_eq_none_iff _ _).mpr h]
  · intro r' h'
    unfold Row.scanCurrentRow
    rw [if_pos (by simpa [List.length_pos] using h')]

/-- Witness for claim C9 at a concrete context. -/
theorem scheduleScan_unknown_name_recorded_witness :
    "zed" ∉ ["id", "name"] ∧
      ((wrapRows Nat ["id", "name"] true).scheduleScanByNameX "zed" 7).scanDestinations =
        [none, none] ∧
      ((wrapRows Nat ["id", "name"] true).scheduleScanByNameX "zed" 7).unknownDestinations =
        ["zed"] ∧
      (((wrapRows Nat ["id", "name"] true).scheduleScanByNameX "zed" 7).scanCurrentRow
        (fun _ => none)) = .error (.mapping ["zed"]) := by
  have h := scheduleScan_unknown_name_recorded (wrapRows Nat ["id", "name"] true) "zed" 7
    (fun _ => none) (by decide)
  refine ⟨by decide, by simpa [wrapRows] using h.1, by simpa [wrapRows] using h.2.1, ?_⟩
  exact h.2.2 _ (by decide)

/-!
## Claim C10

A successful row scan clears all destination slots (keeping one slot per
column), and re-scheduling the same column name before a scan overwrites the
same slot.
-/

/-- Claim C10: after a successful `scanCurrentRow` every destination slot is
unset again while the slot count still equals the column count, so a new bind
phase must re-register destinations for the next row; and scheduling the same
column name twice before a scan overwrites one slot, keeping the
last-registered destination. -/
theorem scanCurrentRow_clears_destinations {D : Type} (r : Row D)
    (scan : List (Option D) → Option String) :
    (∀ r', r.scanCurrentRow scan = .ok r' →
      r'.scanDestinations = List.replicate r.columns.length none ∧
      r'.scanDestinations.length = r.columns.length) ∧
    (∀ (name : String) (v₁ v₂ : D), name ∈ r.columns →
      (r.scheduleScanByNameX name v₁).scheduleScanByNameX name v₂ =
        r.scheduleScanByNameX name v₂) := by
  constructor
  · intro r' hok
    unfold Row.scanCurrentRow at hok
    split at hok
    · exact absurd hok (by simp)
    · split at hok
      · exact absurd hok (by simp)
      · split at hok
        · exact absurd hok (by simp)
        · cases hok
          exact ⟨rfl, by simp⟩
  · intro name v₁ v₂ hmem
    obtain ⟨i, hf, hsched⟩ := scheduleScanByNameX_of_mem r name v₁ hmem
    obtain ⟨j, hf', hsched'⟩ := scheduleScanByNameX_of_mem r name v₂ hmem
    rw [hsched]
    have hcols : ({ r with scanDestinations := r.scanDestinations.set i (some v₁) } :
        Row D).columns = r.columns := rfl
    obtain ⟨k, hfk, hschedk⟩ := scheduleScanByNameX_of_mem
      ({ r with scanDestinations := r.scanDestinations.set i (some v₁) }) name v₂
      (by rw [hcols]; exact hmem)
    rw [hschedk, hsched']
    have hik : k = i := by
      rw [hcols] at hfk
      rw [hf] at hfk
      exact (Option.some_inj.mp hfk).symm
    have hij : j = i := by
      rw [hf] at hf'
      exact (Option.some_inj.mp hf').symm
    subst hik
    subst hij
    simp [List.set_set]

/-- Witness for claim C10 at a concrete context: the scan of a two-column row
with one scheduled destination clears both slots, and double-scheduling
column `b` keeps the last destination. -/
theorem scanCurrentRow_clears_destinations_witness :
    (({ columns := ["a", "b"], scanDestinations := [none, none],
        unknownDestinations := [], allowUnknown := true } : Row Nat).scanDestinations =
      List.replicate ((wrapRows Nat ["a", "b"] true).scheduleScanByNameX "a" 5).columns.length
        none ∧
     ({ columns := ["a", "b"], scanDestinations := [none, none],
        unknownDestinations := [], allowUnknown := true } : Row Nat).scanDestinations.length =
      ((wrapRows Nat ["a", "b"] true).scheduleScanByNameX "a" 5).columns.length) ∧
    "b" ∈ ["a", "b"] ∧
    ((wrapRows Nat ["a", "b"] true).scheduleScanByNameX "b" 1).scheduleScanByNameX "b" 2 =
      (wrapRows Nat ["a", "b"] true).scheduleScanByNameX "b" 2 := by
  refine ⟨?_, by decide, ?_⟩
  · exact (scanCurrentRow_clears_destinations
      ((wrapRows Nat ["a", "b"] true).scheduleScanByNameX "a" 5) (fun _ => none)).1 _ rfl
  · exact (scanCurrentRow_clears_destinations (wrapRows Nat ["a", "b"] true)
      (fun _ => none)).2 "b" 1 2 (by decide)

/-!
## Claim C2

A configured row validator that rejects a row makes the materialize phase
return the zero value silently; an accepting validator changes nothing.
-/

/-- Claim C2: for the struct mapper's materialize phase with a row validator
configured (the `allOptions` variant, which `mapperFromMapping` selects
whenever a validator is set), a rejected row yields the destination type's
zero value with no error, and an accepted row materializes exactly as if no
validator were configured. -/
theorem rowValidator_silent_skip (env : Env) (fz : Nat) (typ : GoTy) (isPointer : Bool)
    (filtered : List MapInfo) (conv : Option TypeConverter) (scratch : List GoVal)
    (rv : RowValidator) :
    allOptionsAfter env fz typ isPointer filtered (some rv) conv scratch =
      (if rv (mapCols filtered) scratch then
        allOptionsAfter env fz typ isPointer filtered none conv scratch
      else .ok (zeroVal env fz typ)) := by
  unfold allOptionsAfter
  by_cases h : rv (mapCols filtered) scratch <;> simp [h]

/-!
## Claim C7

With a non-empty column prefix the reconciler skips non-matching columns,
matches the rest by exact stripped name, and keeps the real column name.
-/

/-- The column reconciler as the specification words it: keep exactly the
query columns starting with the prefix; look each up among the leaves by the
name left after stripping the prefix; a hit carries the leaf's path metadata
re-tagged with the column's real (unstripped) name. -/
def reconcileSpec (c : List String) (m : List MapInfo) (pfx : String) : List MapInfo :=
  (c.filter (fun name => pfx.isPrefixOf name)).filterMap
    (fun name =>
      (m.find? (fun info => info.name == String.drop name pfx.length)).map
        (fun info => { info with name := name }))

/-- Claim C7: for every non-empty configured prefix, `filterColumns` computes
exactly the specification's reconciliation: columns without the prefix are
skipped entirely, the rest are matched by exact name after stripping, and a
match keeps the leaf's metadata under the column's unstripped name. -/
theorem filterColumns_prefix_spec (c : List String) (m : List MapInfo) (pfx : String)
    (h : pfx ≠ "") : filterColumns c m pfx = reconcileSpec c m pfx := by
  induction c with
  | nil => rfl
  | cons name rest ih =>
    by_cases hp : pfx.isPrefixOf name
    · cases hfind : m.find? (fun info => info.name == String.drop name pfx.length) with
      | some info =>
        simp [filterColumns, reconcileSpec, h, hp, hfind, List.filter_cons,
          List.filterMap_cons, ih, reconcileSpec]
      | none =>
        simp [filterColumns, reconcileSpec, h, hp, hfind, List.filter_cons,
          List.filterMap_cons, ih, reconcileSpec]
    · simp [filterColumns, reconcileSpec, h, hp, List.filter_cons, ih, reconcileSpec]

/-- Witness for claim C7 at a concrete prefix and column list. -/
theorem filterColumns_prefix_spec_witness :
    ("p." ≠ "") ∧
    filterColumns ["p.id", "other", "p.name"]
        [⟨"id", [0], [], false⟩, ⟨"name", [1], [], false⟩] "p." =
      reconcileSpec ["p.id", "other", "p.name"]
        [⟨"id", [0], [], false⟩, ⟨"name", [1], [], false⟩] "p." :=
  ⟨by decide, filterColumns_prefix_spec _ _ _ (by decide)⟩

/-!
## Claim C8

The single-column mapper rejects any other column count from both phases with
expected/actual metadata, and maps a one-column row to its scanned value.
-/

/-- Claim C8: with a column count different from one, both phases of
`SingleColumnMapper` fail with metadata carrying the expected count 1 and the
actual count; with exactly one column the pipeline binds that column and
materializes the row's scanned value. -/
theorem singleColumnMapper_column_count (c : List String) (st : Store) (r : Row Addr)
    (a : Nat) (n : String) (v : GoVal) (au : Bool) :
    (c.length ≠ 1 →
      singleColumnBefore c st r = .error (.mapping (wrongCountMeta c.length)) ∧
      singleColumnAfter c a st = .error (.mapping (wrongCountMeta c.length))) ∧
    runRow [n] [v] au (singleColumnBefore [n]) (singleColumnAfter [n]) = .ok v := by
  constructor
  · intro h
    exact ⟨by simp [singleColumnBefore, h], by simp [singleColumnAfter, h]⟩
  · simp [runRow, singleColumnBefore, singleColumnAfter, wrapRows,
      Row.scheduleScanByNameX, findColIdx, Row.createTargets, createTargetsGo,
      applyScan, setPath]

/-- Witness for claim C8 at a two-column list and a one-column run. -/
theorem singleColumnMapper_column_count_witness :
    (["a", "b"].length ≠ 1) ∧
    (singleColumnBefore ["a", "b"] [] (wrapRows Addr ["a", "b"] false) =
      .error (.mapping ["wrong column count", "1", "2"]) ∧
     singleColumnAfter ["a", "b"] 0 [] =
      .error (.mapping ["wrong column count", "1", "2"])) ∧
    runRow ["x"] [.scalar 9] false (singleColumnBefore ["x"]) (singleColumnAfter ["x"]) =
      .ok (.scalar 9) := by
  have h := singleColumnMapper_column_count ["a", "b"] [] (wrapRows Addr ["a", "b"] false)
    0 "x" (.scalar 9) false
  exact ⟨by decide, h.1 (by decide), h.2⟩

/-!
## Claim C3

Mod composition preserves registration order, threads each mod's link and the
current value, and short-circuits on the first error in each phase.
-/

theorem runBefores_cons {S A E : Type} (b : S → Except E (S × A))
    (bs : List (S → Except E (S × A))) (s : S) :
    runBefores (b :: bs) s =
      match b s with
      | .error e => .error e
      | .ok p =>
        match runBefores bs p.1 with
        | .error e => .error e
        | .ok q => .ok (q.1, p.2 :: q.2) := rfl

theorem runAfters_cons {A T E : Type} (f : A → T → Except E T)
    (fs : List (A → T → Except E T)) (l : A) (ls : List A) (t : T) :
    runAfters (f :: fs) (l :: ls) t =
      match f l t with
      | .error e => .error e
      | .ok t' => runAfters fs ls t' := rfl

theorem runBefores_append {S A E : Type} (ms₁ ms₂ : List (S → Except E (S × A))) (s : S) :
    runBefores (ms₁ ++ ms₂) s =
      match runBefores ms₁ s with
      | .error e => .error e
      | .ok p =>
        match runBefores ms₂ p.1 with
        | .error e => .error e
        | .ok q => .ok (q.1, p.2 ++ q.2) := by
  induction ms₁ generalizing s with
  | nil =>
    cases h : runBefores ms₂ s with
    | error e => simp [runBefores, h]
    | ok q => simp [runBefores, h]
  | cons b bs ih =>
    rw [List.cons_append, runBefores_cons, runBefores_cons]
    cases hb : b s with
    | error e => rfl
    | ok p =>
      dsimp only
      rw [ih p.1]
      cases h1 : runBefores bs p.1 with
      | error e => rfl
      | ok q =>
        dsimp only
        cases h2 : runBefores ms₂ q.1 with
        | error e => rfl
        | ok w => simp

theorem runBefores_length {S A E : Type} (mods : List (S → Except E (S × A))) (s s' : S)
    (ls : List A) (h : runBefores mods s = .ok (s', ls)) : ls.length = mods.length := by
  induction mods generalizing s ls with
  | nil =>
    unfold runBefores at h
    cases h
    rfl
  | cons b bs ih =>
    rw [runBefores_cons] at h
    cases hb : b s with
    | error e => rw [hb] at h; exact absurd h (by simp)
    | ok p =>
      rw [hb] at h
      dsimp only at h
      cases h1 : runBefores bs p.1 with
      | error e => rw [h1] at h; exact absurd h (by simp)
      | ok q =>
        rw [h1] at h
        dsimp only at h
        cases h
        simpa using ih p.1 q.2 h1

theorem runAfters_append {A T E : Type} (afs₁ afs₂ : List (A → T → Except E T))
    (ls₁ ls₂ : List A) (t : T) (h : afs₁.length = ls₁.length) :
    runAfters (afs₁ ++ afs₂) (ls₁ ++ ls₂) t =
      match runAfters afs₁ ls₁ t with
      | .error e => .error e
      | .ok t' => runAfters afs₂ ls₂ t' := by
  induction afs₁ generalizing ls₁ t with
  | nil =>
    cases ls₁ with
    | nil => simp only [List.nil_append]; rfl
    | cons l ls => exact absurd h (by simp)
  | cons f fs ih =>
    cases ls₁ with
    | nil => exact absurd h (by simp)
    | cons l ls =>
      rw [List.cons_append, List.cons_append, runAfters_cons, runAfters_cons]
      cases hf : f l t with
      | error e => rfl
      | ok t' =>
        dsimp only
        rw [ih ls t' (by simpa using h)]

/-- Claim C3: for every base mapper and ordered mod list composed with `Mod`,
the composed bind phase returns a failing base bind's error unchanged (no mod
bind is consulted); the mods' bind phases run in registration order, links
accumulating in that order (splitting the list splits the run, so an error in
an earlier segment makes the later segment irrelevant), with one stored link
per mod; the composed materialize phase returns a failing base materialize's
error unchanged, and the mods' materialize steps consume their stored links
in the same order, each receiving the value produced by the previous step,
with an error cutting off the remaining mods. -/
theorem modCompose_order_and_short_circuit {S A T E : Type}
    (base : S → Except E (S × A)) (baseA : A → Except E T)
    (mods ms₁ ms₂ : List (S → Except E (S × A)))
    (afs afs₁ afs₂ : List (A → T → Except E T))
    (ls₁ ls₂ : List A) (s s' : S) (ls : List A) (t : T) (a : A) :
    (∀ e, base s = .error e → modBefore base mods s = .error e) ∧
    (runBefores (ms₁ ++ ms₂) s =
      match runBefores ms₁ s with
      | .error e => .error e
      | .ok p =>
        match runBefores ms₂ p.1 with
        | .error e => .error e
        | .ok q => .ok (q.1, p.2 ++ q.2)) ∧
    (runBefores mods s = .ok (s', ls) → ls.length = mods.length) ∧
    (∀ e, baseA a = .error e → modAfter baseA afs ls₁ a = .error e) ∧
    (afs₁.length = ls₁.length →
      runAfters (afs₁ ++ afs₂) (ls₁ ++ ls₂) t =
        match runAfters afs₁ ls₁ t with
        | .error e => .error e
        | .ok t' => runAfters afs₂ ls₂ t') := by
  refine ⟨?_, runBefores_append ms₁ ms₂ s, runBefores_length mods s s' ls, ?_,
    runAfters_append afs₁ afs₂ ls₁ ls₂ t⟩
  · intro e he
    unfold modBefore
    rw [he]
  · intro e he
    unfold modAfter
    rw [he]

/-- A concrete mod bind phase over a counter state (for the C3 witness). -/
def modIncr : Nat → Except String (Nat × Nat) := fun s => .ok (s + 1, s)

/-- Another concrete mod bind phase (for the C3 witness). -/
def modDouble : Nat → Except String (Nat × Nat) := fun s => .ok (s * 2, s + 10)

/-- A concrete mod materialize step (for the C3 witness). -/
def afAdd : Nat → Nat → Except String Nat := fun l t => .ok (l + t)

/-- Another concrete mod materialize step (for the C3 witness). -/
def afMul : Nat → Nat → Except String Nat := fun l t => .ok (l * t)

/-- A failing base bind phase (for the C3 witness). -/
def baseFailB : Nat → Except String (Nat × Nat) := fun _ => .error "base failed"

/-- A failing base materialize phase (for the C3 witness). -/
def baseFailA : Nat → Except String Nat := fun _ => .error "base after failed"

/-- Witness for claim C3 on concrete mods over a counter state. -/
theorem modCompose_order_and_short_circuit_witness :
    (modBefore baseFailB [modIncr] 3 = .error "base failed") ∧
    (runBefores ([modIncr] ++ [modDouble]) 3 = .ok (8, [3, 14])) ∧
    (runBefores [modIncr] 3 = .ok (4, [3]) ∧ [3].length = [modIncr].length) ∧
    (modAfter baseFailA [afAdd] [2] 0 = .error "base after failed") ∧
    ([afAdd].length = [2].length ∧
      runAfters ([afAdd] ++ [afMul]) ([2] ++ [3]) 1 = .ok 9) := by
  have h := modCompose_order_and_short_circuit baseFailB baseFailA
    [modIncr] [modIncr] [modDouble] [afAdd] [afAdd] [afMul]
    [2] [3] 3 4 [3] 1 0
  refine ⟨h.1 _ rfl, ?_, ⟨rfl, h.2.2.1 rfl⟩, h.2.2.2.1 _ rfl, rfl, ?_⟩
  · rw [h.2.1]; rfl
  · rw [h.2.2.2.2 rfl]; rfl

/-!
## Claim C5

Descriptor traversal always terminates without error: the per-type visit
counter bounds every branch, so `getMapping`'s fuel can never run out.
-/

theorem length_allRefs (env : Env) : (allRefs env).length = 2 * env.length := by
  simp [allRefs]
  omega

theorem allRefs_nodup (env : Env) : (allRefs env).Nodup := by
  unfold allRefs
  refine List.Nodup.append ?_ ?_ ?_
  · exact (List.nodup_range _).map (fun a b h => by simpa using h)
  · exact (List.nodup_range _).map (fun a b h => by simpa using h)
  · rw [List.disjoint_left]
    intro a ha hb
    simp only [List.mem_map, List.mem_range] at ha hb
    obtain ⟨i, _, rfl⟩ := ha
    obtain ⟨j, _, hj⟩ := hb
    exact Bool.false_ne_true (congrArg Prod.fst hj).symm

theorem mem_allRefs (env : Env) (tref : TypeRef) (h : tref.2 < env.length) :
    tref ∈ allRefs env := by
  obtain ⟨b, i⟩ := tref
  cases b
  · exact List.mem_append_left _ (List.mem_map.mpr ⟨i, List.mem_range.mpr h, rfl⟩)
  · exact List.mem_append_right _ (List.mem_map.mpr ⟨i, List.mem_range.mpr h, rfl⟩)

theorem sum_map_succ_at {α : Type} {l : List α} {f g : α → Nat} {t0 : α}
    (hnd : l.Nodup) (hmem : t0 ∈ l) (hagree : ∀ t ∈ l, t ≠ t0 → f t = g t)
    (hat : f t0 = g t0 + 1) : (l.map f).sum = (l.map g).sum + 1 := by
  induction l with
  | nil => cases hmem
  | cons a rest ih =>
    have hnd' := List.nodup_cons.mp hnd
    rcases List.mem_cons.mp hmem with rfl | hmem'
    · have hrest : rest.map f = rest.map g :=
        List.map_congr_left (fun t ht => hagree t (List.mem_cons_of_mem _ ht)
          (fun he => hnd'.1 (he ▸ ht)))
      simp only [List.map_cons, List.sum_cons, hat, hrest]
      omega
    · have ha : f a = g a :=
        hagree a (List.mem_cons_self _ _) (fun he => hnd'.1 (he ▸ hmem'))
      have := ih hnd'.2 hmem'
        (fun t ht hne => hagree t (List.mem_cons_of_mem _ ht) hne)
      simp only [List.map_cons, List.sum_cons, ha, this]
      omega

theorem measureOf_bump (env : Env) (cfg : MapperCfg) (v : TypeRef → Nat) (tref : TypeRef)
    (hlt : tref.2 < env.length) (hd : v tref ≤ cfg.maxDepth) :
    measureOf env cfg v = measureOf env cfg (bumpVisit v tref) + 1 := by
  unfold measureOf
  refine sum_map_succ_at (allRefs_nodup env) (mem_allRefs env tref hlt) ?_ ?_
  · intro t _ hne
    simp [bumpVisit, hne]
  · simp [bumpVisit]
    omega

theorem goFields_isSome (env : Env) (cfg : MapperCfg) (fuel : Nat)
    (hP : ∀ tref pfx v m inits position, measureOf env cfg v < fuel →
      (setMappings env cfg fuel tref pfx v m inits position).isSome) :
    ∀ (flds : List GoField) (i : Nat) (pfx : String) (v : TypeRef → Nat)
      (m : List MapInfo) (inits : List (List Nat)) (position : List Nat) (hEx : Bool),
      measureOf env cfg v < fuel →
      (goFields env cfg fuel flds i pfx v m inits position hEx).isSome := by
  intro flds
  induction flds with
  | nil => intro i pfx v m inits position hEx _; simp [goFields]
  | cons field rest ih =>
    intro i pfx v m inits position hEx hv
    rw [goFields]
    split
    · exact ih (i + 1) pfx v m inits position hEx hv
    · cases hb : field.base with
      | scalar => exact ih (i + 1) pfx v _ _ position true hv
      | strct id' =>
        have hs := hP (field.isPtr, id')
          (if field.anonymous then pfx
            else pfx ++ (if pfx ≠ "" then cfg.columnSeparator else "") ++
              cfg.fieldMapperFn (if tagOf field ≠ "" then tagOf field else field.fname))
          v m (if field.isPtr then inits ++ [position ++ [i]] else inits)
          (position ++ [i]) hv
        cases hset : setMappings env cfg fuel (field.isPtr, id')
            (if field.anonymous then pfx
              else pfx ++ (if pfx ≠ "" then cfg.columnSeparator else "") ++
                cfg.fieldMapperFn (if tagOf field ≠ "" then tagOf field else field.fname))
            v m (if field.isPtr then inits ++ [position ++ [i]] else inits)
            (position ++ [i]) with
        | none => rw [hset] at hs; exact absurd hs (by simp)
        | some m' =>
          simp only [hset]
          exact ih (i + 1) pfx v m' _ position true hv

theorem setMappings_isSome_of_fuel :
    ∀ (fuel : Nat) (env : Env) (cfg : MapperCfg) (tref : TypeRef) (pfx : String)
      (v : TypeRef → Nat) (m : List MapInfo) (inits : List (List Nat)) (position : List Nat),
      measureOf env cfg v < fuel →
      (setMappings env cfg fuel tref pfx v m inits position).isSome := by
  intro fuel
  induction fuel with
  | zero => intro env cfg tref pfx v m inits position h; omega
  | succ fuel ih =>
    intro env cfg tref pfx v m inits position hv
    rw [setMappings]
    split
    · simp
    · rename_i hdepth
      dsimp only
      split
      · simp
      · by_cases hlt : tref.2 < env.length
        · have hmeas : measureOf env cfg v = measureOf env cfg (bumpVisit v tref) + 1 :=
            measureOf_bump env cfg v tref hlt (by omega)
          have hgf := goFields_isSome env cfg fuel
            (fun tref' pfx' v' m' inits' position' h' =>
              ih env cfg tref' pfx' v' m' inits' position' h')
            (structOf env tref.2).fields 0 pfx (bumpVisit v tref) m inits position false
            (by omega)
          cases hg : goFields env cfg fuel (structOf env tref.2).fields 0 pfx
              (bumpVisit v tref) m inits position false with
          | none => rw [hg] at hgf; exact absurd hgf (by simp)
          | some p =>
            obtain ⟨m', hEx⟩ := p
            dsimp only
            split <;> simp
        · have hfields : (structOf env tref.2).fields = [] := by
            unfold structOf
            rw [List.get?_eq_none.mpr (by omega)]
            rfl
          rw [hfields]
          rw [goFields]
          dsimp only
          split <;> simp

/-- Claim C5: descriptor traversal always terminates and never errors.  Once
a type reference has been visited more than `maxDepth` times the branch ends
silently with the mapping untouched; and for any environment — including
self-referential ones — the remaining visit budget strictly decreases at
every descent, so with `getMapping`'s fuel the traversal always completes
(the only `none` in the model is fuel exhaustion, which therefore never
happens; the Go function has no error path at all). -/
theorem setMappings_total_and_truncating (env : Env) (cfg : MapperCfg) :
    (∀ (fuel : Nat) (tref : TypeRef) (pfx : String) (v : TypeRef → Nat)
      (m : List MapInfo) (inits : List (List Nat)) (position : List Nat),
      cfg.maxDepth < v tref →
      setMappings env cfg (fuel + 1) tref pfx v m inits position = some m) ∧
    (∀ (fuel : Nat) (tref : TypeRef) (pfx : String) (v : TypeRef → Nat)
      (m : List MapInfo) (inits : List (List Nat)) (position : List Nat),
      measureOf env cfg v < fuel →
      (setMappings env cfg fuel tref pfx v m inits position).isSome) ∧
    (∀ tref : TypeRef,
      (setMappings env cfg (bigFuel env cfg) tref "" (fun _ => 0) [] [] []).isSome) := by
  refine ⟨?_, ?_, ?_⟩
  · intro fuel tref pfx v m inits position h
    rw [setMappings]
    rw [if_pos h]
  · intro fuel tref pfx v m inits position h
    exact setMappings_isSome_of_fuel fuel env cfg tref pfx v m inits position h
  · intro tref
    refine setMappings_isSome_of_fuel _ env cfg tref "" (fun _ => 0) [] [] [] ?_
    have hb : measureOf env cfg (fun _ => 0) ≤ (allRefs env).length * (cfg.maxDepth + 1) := by
      unfold measureOf
      have := List.sum_le_card_nsmul ((allRefs env).map
        (fun t => cfg.maxDepth + 1 - (fun _ => 0) t)) (cfg.maxDepth + 1)
        (by intro x hx; simp only [List.mem_map] at hx; obtain ⟨t, _, rfl⟩ := hx; omega)
      simp only [smul_eq_mul, List.length_map] at this
      exact this
    rw [length_allRefs] at hb
    unfold bigFuel
    omega

/-- Witness for claim C5 on the self-referential type
`Node { Next *Node; Val int }` with the default depth limit 3. -/
theorem setMappings_total_and_truncating_witness :
    (3 < 4 ∧
      setMappings [⟨[⟨"Next", "", true, false, true, .strct 0⟩,
            ⟨"Val", "", true, false, false, .scalar⟩], false⟩]
          ⟨".", id, 3⟩ 6 (true, 0) "next" (fun t => if t = (true, 0) then 4 else 0)
          [⟨"val", [1], [], false⟩] [] [] = some [⟨"val", [1], [], false⟩]) ∧
    (measureOf [⟨[⟨"Next", "", true, false, true, .strct 0⟩,
          ⟨"Val", "", true, false, false, .scalar⟩], false⟩] ⟨".", id, 3⟩ (fun _ => 0) < 9 ∧
      (setMappings [⟨[⟨"Next", "", true, false, true, .strct 0⟩,
            ⟨"Val", "", true, false, false, .scalar⟩], false⟩]
          ⟨".", id, 3⟩ 9 (false, 0) "" (fun _ => 0) [] [] []).isSome) ∧
    (setMappings [⟨[⟨"Next", "", true, false, true, .strct 0⟩,
          ⟨"Val", "", true, false, false, .scalar⟩], false⟩]
        ⟨".", id, 3⟩
        (bigFuel [⟨[⟨"Next", "", true, false, true, .strct 0⟩,
          ⟨"Val", "", true, false, false, .scalar⟩], false⟩] ⟨".", id, 3⟩)
        (false, 0) "" (fun _ => 0) [] [] []).isSome := by
  have h := setMappings_total_and_truncating
    [⟨[⟨"Next", "", true, false, true, .strct 0⟩,
        ⟨"Val", "", true, false, false, .scalar⟩], false⟩] ⟨".", id, 3⟩
  refine ⟨⟨by omega, ?_⟩, ⟨by decide, ?_⟩, h.2.2 (false, 0)⟩
  · exact h.1 5 (true, 0) "next" (fun t => if t = (true, 0) then 4 else 0)
      [⟨"val", [1], [], false⟩] [] [] (by decide)
  · exact h.2.1 9 (false, 0) "" (fun _ => 0) [] [] [] (by decide)

/-!
## Flat record types: closed form of the traversal and the bind/materialize
round trip (claims C4 and C1)
-/

/-- The column name a top-level field receives: the mapped tag when present,
else the mapped identifier (no prefix, hence no separator). -/
def keyOfTop (cfg : MapperCfg) (f : GoField) : String :=
  cfg.fieldMapperFn (if tagOf f ≠ "" then tagOf f else f.fname)

/-- Expected leaves of a flat struct whose fields (from index `i` on) are all
exported, named, non-pointer scalars. -/
def flatLeaves (cfg : MapperCfg) : Nat → List GoField → List MapInfo
  | _, [] => []
  | i, f :: fs => ⟨keyOfTop cfg f, [i], [], false⟩ :: flatLeaves cfg (i + 1) fs

/-- Leaf column names of a flat struct. -/
def flatKeys (cfg : MapperCfg) (fs : List GoField) : List String :=
  fs.map (keyOfTop cfg)

/-- A field that traversal includes as a plain scalar leaf. -/
def FlatField (f : GoField) : Prop :=
  f.exported = true ∧ f.anonymous = false ∧ f.isPtr = false ∧ f.base = .scalar ∧
    tagOf f ≠ "-"

instance (f : GoField) : Decidable (FlatField f) := by
  unfold FlatField
  infer_instance

theorem mapCols_flatLeaves (cfg : MapperCfg) (fs : List GoField) :
    ∀ i, mapCols (flatLeaves cfg i fs) = flatKeys cfg fs := by
  induction fs with
  | nil => intro i; rfl
  | cons f fs ih =>
    intro i
    have h := ih (i + 1)
    simp only [mapCols, flatKeys] at h ⊢
    simp [flatLeaves, h]

theorem init_flatLeaves (cfg : MapperCfg) (fs : List GoField) :
    ∀ i, ∀ info ∈ flatLeaves cfg i fs, info.init = [] ∧ ∃ j, info.position = [j] := by
  induction fs with
  | nil => intro i info h; cases h
  | cons f fs ih =>
    intro i info h
    rcases List.mem_cons.mp h with rfl | h'
    · exact ⟨rfl, i, rfl⟩
    · exact ih (i + 1) info h'

theorem goFields_flat (env : Env) (cfg : MapperCfg) (fuel : Nat) :
    ∀ (fs : List GoField) (i : Nat) (v : TypeRef → Nat) (m : List MapInfo) (hEx : Bool),
      (∀ f ∈ fs, FlatField f) →
      goFields env cfg fuel fs i "" v m [] [] hEx =
        some (m ++ flatLeaves cfg i fs, hEx || !fs.isEmpty) := by
  intro fs
  induction fs with
  | nil => intro i v m hEx _; simp [goFields, flatLeaves]
  | cons f fs ih =>
    intro i v m hEx hflat
    obtain ⟨hexp, hanon, hptr, hbase, htag⟩ := hflat f (List.mem_cons_self _ _)
    rw [goFields]
    rw [if_neg (by simp [hexp, htag])]
    simp only [hanon, if_neg (by simp : ¬ (false = true)), hptr, hbase]
    rw [ih (i + 1) v _ true (fun g hg => hflat g (List.mem_cons_of_mem _ hg))]
    simp only [List.isEmpty_cons, Bool.not_false, Bool.or_true, Bool.true_or,
      List.append_nil, List.append_assoc, List.singleton_append]
    rfl

theorem setMappings_flat (cfg : MapperCfg) (fs : List GoField) (fuel : Nat)
    (hne : fs ≠ []) (hflat : ∀ f ∈ fs, FlatField f) :
    setMappings [⟨fs, false⟩] cfg (fuel + 1) (false, 0) "" (fun _ => 0) [] [] [] =
      some (flatLeaves cfg 0 fs) := by
  rw [setMappings]
  rw [if_neg (by omega)]
  dsimp only
  rw [if_neg (by simp [structOf])]
  have hst : structOf [⟨fs, false⟩] 0 = ⟨fs, false⟩ := rfl
  rw [hst]
  rw [goFields_flat [⟨fs, false⟩] cfg fuel fs 0 _ [] false hflat]
  have : (false || !fs.isEmpty) = true := by
    cases fs with
    | nil => exact absurd rfl hne
    | cons g gs => simp
  rw [this]
  simp

theorem getMapping_flat (cfg : MapperCfg) (fs : List GoField)
    (hne : fs ≠ []) (hflat : ∀ f ∈ fs, FlatField f) :
    getMapping [⟨fs, false⟩] cfg (false, 0) = flatLeaves cfg 0 fs := by
  unfold getMapping
  obtain ⟨n, hn⟩ : ∃ n, bigFuel [⟨fs, false⟩] cfg = n + 1 :=
    ⟨2 * 1 * (cfg.maxDepth + 1), by unfold bigFuel; simp⟩
  rw [hn, setMappings_flat cfg fs n hne hflat]
  rfl

theorem list_set_getD {α : Type} : ∀ (l : List α) (k : Nat) (d : α), k < l.length →
    l.set k (l.getD k d) = l := by
  intro l
  induction l with
  | nil => intro k d h; simp at h
  | cons x xs ih =>
    intro k d h
    cases k with
    | zero => rfl
    | succ k => simpa [List.set] using ih k d (by simpa using h)

theorem take_succ_set {α : Type} : ∀ (l : List α) (k : Nat) (a : α), k < l.length →
    (l.set k a).take (k + 1) = l.take k ++ [a] := by
  intro l
  induction l with
  | nil => intro k a h; simp at h
  | cons x xs ih =>
    intro k a h
    cases k with
    | zero => rfl
    | succ k =>
      simp only [List.set, List.take, List.cons_append]
      rw [ih k a (by simpa using h)]

theorem findColIdx_self_nodup : ∀ (cols : List String), cols.Nodup →
    ∀ (k : Nat) (h : k < cols.length), findColIdx cols (cols.get ⟨k, h⟩) = some k := by
  intro cols
  induction cols with
  | nil => intro _ k h; simp at h
  | cons c rest ih =>
    intro hnd k h
    cases k with
    | zero => simp [findColIdx]
    | succ k =>
      have hk : k < rest.length := by simpa using h
      have hcne : c ≠ rest.get ⟨k, hk⟩ := by
        intro he
        exact (List.nodup_cons.mp hnd).1 (he ▸ (List.get_mem rest k hk))
      simp only [findColIdx, List.get_cons_succ]
      rw [if_neg hcne, ih (List.nodup_cons.mp hnd).2 k hk]
      rfl

theorem filterColumns_cons_no_pfx (nm : String) (rest : List String) (m : List MapInfo) :
    filterColumns (nm :: rest) m "" =
      (match m.find? (fun info => info.name == nm) with
      | some info => { info with name := nm } :: filterColumns rest m ""
      | none => filterColumns rest m "") := rfl

theorem filterColumns_skip (info0 : MapInfo) (m : List MapInfo) :
    ∀ (c : List String), (∀ nm ∈ c, info0.name ≠ nm) →
      filterColumns c (info0 :: m) "" = filterColumns c m "" := by
  intro c
  induction c with
  | nil => intro _; rfl
  | cons nm rest ih =>
    intro hne
    have h0 : ¬(info0.name == nm) = true := by
      simp [hne nm (List.mem_cons_self _ _)]
    rw [filterColumns_cons_no_pfx, filterColumns_cons_no_pfx,
      @List.find?_cons_of_neg _ (fun info => info.name == nm) info0 m h0]
    rw [ih (fun x hx => hne x (List.mem_cons_of_mem _ hx))]

theorem filterColumns_self : ∀ (m : List MapInfo), (mapCols m).Nodup →
    filterColumns (mapCols m) m "" = m := by
  intro m
  induction m with
  | nil => intro _; rfl
  | cons info m' ih =>
    intro hnd
    have hnd3 : (info.name :: mapCols m').Nodup := by simpa [mapCols] using hnd
    have hnd' := List.nodup_cons.mp hnd3
    show filterColumns (info.name :: mapCols m') (info :: m') "" = info :: m'
    rw [filterColumns_cons_no_pfx]
    rw [@List.find?_cons_of_pos _ (fun i2 => i2.name == info.name) info m' (by simp)]
    rw [filterColumns_skip info m' (mapCols m') (fun nm hnm => fun he => hnd'.1 (he ▸ hnm))]
    rw [ih hnd'.2]

theorem createTargetsGo_all_some {D : Type} :
    ∀ (c : List String) (dests : List (Option D)) (au : Bool),
      dests.length = c.length → (∀ d ∈ dests, d ≠ none) →
      createTargetsGo au c dests = .ok dests := by
  intro c
  induction c with
  | nil =>
    intro dests au hlen _
    obtain rfl : dests = [] := List.length_eq_zero.mp (by simpa using hlen)
    rfl
  | cons nm rest ih =>
    intro dests au hlen hsome
    cases dests with
    | nil => simp at hlen
    | cons d ds =>
      cases d with
      | none => exact absurd rfl (hsome none (List.mem_cons_self _ _))
      | some x =>
        simp only [createTargetsGo, List.headD, List.tail]
        rw [ih ds au (by simpa using hlen) (fun d hd => hsome d (List.mem_cons_of_mem _ hd))]

theorem flatLeaves_length (cfg : MapperCfg) : ∀ (fs : List GoField) (i : Nat),
    (flatLeaves cfg i fs).length = fs.length := by
  intro fs
  induction fs with
  | nil => intro i; rfl
  | cons f fs ih => intro i; simp [flatLeaves, ih]

theorem zeroFields_flat (env : Env) (fz : Nat) : ∀ (fs : List GoField),
    (∀ f ∈ fs, f.isPtr = false ∧ f.base = .scalar) →
    zeroFields env fz fs = List.replicate fs.length (.scalar 0) := by
  intro fs
  induction fs with
  | nil => intro _; simp [zeroFields]
  | cons f fs ih =>
    intro h
    obtain ⟨hp, hb⟩ := h f (List.mem_cons_self _ _)
    have hty : fieldTy f = .scalarTy := by simp [fieldTy, hp, hb]
    rw [zeroFields, hty]
    rw [ih (fun g hg => h g (List.mem_cons_of_mem _ hg))]
    simp [zeroVal, List.replicate_succ]

theorem zeroVal_flatStruct (fs : List GoField) (fz : Nat)
    (h : ∀ f ∈ fs, f.isPtr = false ∧ f.base = .scalar) :
    zeroVal [⟨fs, false⟩] (fz + 1) (.strctTy 0) =
      .strct (List.replicate fs.length (.scalar 0)) := by
  rw [zeroVal]
  rw [show structOf [⟨fs, false⟩] 0 = ⟨fs, false⟩ from rfl]
  rw [zeroFields_flat [⟨fs, false⟩] fz fs h]

theorem regularBefore_fold_flat (env : Env) (fz : Nat) (typ : GoTy) (a : Nat) :
    ∀ (fil : List MapInfo) (s : Store) (rr : Row Addr),
      (∀ info ∈ fil, info.init = []) → a < s.length →
      fil.foldl
        (fun (acc : Store × Row Addr) info =>
          (acc.1.set a (initPointersAt env fz typ (acc.1.getD a (.scalar 0)) info.init),
            acc.2.scheduleScanByNameX info.name (a, info.position)))
        (s, rr) =
      (s, fil.foldl (fun r2 info => r2.scheduleScanByNameX info.name (a, info.position)) rr) := by
  intro fil
  induction fil with
  | nil => intro s rr _ _; rfl
  | cons info fil ih =>
    intro s rr hinit hlt
    have h0 : info.init = [] := hinit info (List.mem_cons_self _ _)
    simp only [List.foldl_cons, h0, initPointersAt, List.foldl_nil]
    rw [list_set_getD s a (.scalar 0) hlt]
    exact ih s _ (fun i hi => hinit i (List.mem_cons_of_mem _ hi)) hlt

theorem regularBefore_flat (env : Env) (fz : Nat) (typ : GoTy) (filtered : List MapInfo)
    (st : Store) (r : Row Addr) (hinit : ∀ info ∈ filtered, info.init = []) :
    regularBefore env fz typ false filtered st r =
      (st ++ [zeroVal env fz typ],
        filtered.foldl
          (fun rr info => rr.scheduleScanByNameX info.name (st.length, info.position)) r,
        st.length) := by
  unfold regularBefore
  have hred : (if (false : Bool) = true then elemTyOf typ else typ) = typ := rfl
  dsimp only
  rw [hred]
  rw [regularBefore_fold_flat env fz typ st.length filtered (st ++ [zeroVal env fz typ]) r
    hinit (by simp)]

theorem schedFold_inorder {cols : List String} (hnd : cols.Nodup) (a : Nat) :
    ∀ (ms : List MapInfo) (k : Nat) (r : Row Addr),
      r.columns = cols → mapCols ms = cols.drop k →
      r.scanDestinations.length = cols.length →
      ms.foldl (fun rr info => rr.scheduleScanByNameX info.name (a, info.position)) r =
        { r with scanDestinations :=
            r.scanDestinations.take k ++ ms.map (fun info => some (a, info.position)) } := by
  intro ms
  induction ms with
  | nil =>
    intro k r hcols hdrop hlen
    have hk : cols.length ≤ k := by
      have h0 : (List.drop k cols).length = 0 := by rw [← hdrop]; rfl
      simp only [List.length_drop] at h0
      omega
    simp only [List.foldl_nil, List.map_nil, List.append_nil]
    rw [List.take_of_length_le (by omega)]
  | cons info ms' ih =>
    intro k r hcols hdrop hlen
    have hk : k < cols.length := by
      by_contra hge
      rw [List.drop_eq_nil_of_le (by omega)] at hdrop
      exact absurd hdrop (by simp [mapCols])
    rw [List.drop_eq_getElem_cons hk] at hdrop
    simp only [mapCols, List.map_cons, List.cons.injEq] at hdrop
    obtain ⟨hname, hrest⟩ := hdrop
    have hfind : findColIdx r.columns info.name = some k := by
      rw [hcols, hname]
      exact findColIdx_self_nodup cols hnd k hk
    simp only [List.foldl_cons]
    rw [show r.scheduleScanByNameX info.name (a, info.position) =
        { r with scanDestinations :=
            r.scanDestinations.set k (some (a, info.position)) } by
      unfold Row.scheduleScanByNameX
      rw [hfind]]
    rw [ih (k + 1)
      { r with scanDestinations := r.scanDestinations.set k (some (a, info.position)) }
      hcols (by simpa [mapCols] using hrest) (by simp [hlen])]
    simp only []
    rw [take_succ_set _ k _ (by omega)]
    simp [List.append_assoc]

theorem applyScan_flat (cfg : MapperCfg) :
    ∀ (fs : List GoField) (k : Nat) (zs : List GoVal) (vals : List GoVal),
      vals.length = fs.length → zs.length = k + fs.length →
      applyScan [(.strct zs : GoVal)]
        ((flatLeaves cfg k fs).map (fun info => some ((0 : Nat), info.position))) vals =
      [.strct (zs.take k ++ vals)] := by
  intro fs
  induction fs with
  | nil =>
    intro k zs vals hv hz
    obtain rfl : vals = [] := List.length_eq_zero.mp (by simpa using hv)
    have hz0 : zs.length = k := by simpa using hz
    simp only [flatLeaves, List.map_nil, applyScan, List.zip_nil_left, List.foldl_nil]
    rw [List.take_of_length_le (by omega)]
    simp
  | cons f fs ih =>
    intro k zs vals hv hz
    cases vals with
    | nil => simp at hv
    | cons v vals' =>
      simp only [flatLeaves, List.map_cons, applyScan, List.zip_cons_cons, List.foldl_cons]
      have hstep : (([(.strct zs : GoVal)].set 0
          (setPath [k] (([(.strct zs : GoVal)].getD 0 (.scalar 0))) v)) : Store) =
          [.strct (zs.set k v)] := by
        simp [setPath]
      rw [show ([(.strct zs : GoVal)] : Store).set 0
          (setPath [k] (([(.strct zs : GoVal)] : Store).getD 0 (.scalar 0)) v) =
          [.strct (zs.set k v)] from hstep]
      have hv' : vals'.length = fs.length := by simpa using hv
      have hzc : zs.length = k + fs.length + 1 := by
        simp only [List.length_cons] at hz
        omega
      have hz' : (zs.set k v).length = (k + 1) + fs.length := by
        rw [List.length_set]
        omega
      have := ih (k + 1) (zs.set k v) vals' hv' hz'
      simp only [applyScan] at this
      rw [this]
      rw [take_succ_set _ k _ (by omega)]
      simp

theorem structRegularRun_flat (cfg : MapperCfg) (fs : List GoField) (vals : List GoVal)
    (au : Bool) (fz : Nat)
    (hflat : ∀ f ∈ fs, FlatField f)
    (hnodup : (flatKeys cfg fs).Nodup)
    (hlen : vals.length = fs.length) :
    structRegularRun [⟨fs, false⟩] (fz + 1) (.strctTy 0) false (flatLeaves cfg 0 fs) ""
      (flatKeys cfg fs) vals au = .ok (.strct vals) := by
  have hcols : mapCols (flatLeaves cfg 0 fs) = flatKeys cfg fs := mapCols_flatLeaves cfg fs 0
  have hfilter : filterColumns (flatKeys cfg fs) (flatLeaves cfg 0 fs) "" =
      flatLeaves cfg 0 fs := by
    rw [← hcols]
    exact filterColumns_self _ (by rw [hcols]; exact hnodup)
  have hinit : ∀ info ∈ flatLeaves cfg 0 fs, info.init = [] :=
    fun info hmem => (init_flatLeaves cfg fs 0 info hmem).1
  have hptrsc : ∀ f ∈ fs, f.isPtr = false ∧ f.base = .scalar :=
    fun f hf => ⟨(hflat f hf).2.2.1, (hflat f hf).2.2.2.1⟩
  unfold structRegularRun runRow
  dsimp only
  rw [hfilter]
  rw [regularBefore_flat [⟨fs, false⟩] (fz + 1) (.strctTy 0) (flatLeaves cfg 0 fs) []
    (wrapRows Addr (flatKeys cfg fs) au) hinit]
  dsimp only
  simp only [List.length_nil]
  rw [schedFold_inorder hnodup 0 (flatLeaves cfg 0 fs) 0 (wrapRows Addr (flatKeys cfg fs) au)
    rfl (by rw [hcols]; simp) (by simp [wrapRows])]
  dsimp only [wrapRows]
  rw [if_neg (by simp)]
  have htargets : createTargetsGo au (flatKeys cfg fs)
      ((List.replicate (flatKeys cfg fs).length (none : Option Addr)).take 0 ++
        (flatLeaves cfg 0 fs).map (fun info => some ((0 : Nat), info.position))) =
      .ok ((flatLeaves cfg 0 fs).map (fun info => some ((0 : Nat), info.position))) := by
    rw [List.take_zero, List.nil_append]
    refine createTargetsGo_all_some _ _ _ ?_ ?_
    · rw [List.length_map, flatLeaves_length, flatKeys]
      rw [List.length_map]
    · intro d hd
      obtain ⟨info, _, rfl⟩ := List.mem_map.mp hd
      simp
  rw [show Row.createTargets
      { columns := flatKeys cfg fs,
        scanDestinations :=
          (List.replicate (flatKeys cfg fs).length (none : Option Addr)).take 0 ++
            (flatLeaves cfg 0 fs).map (fun info => some ((0 : Nat), info.position)),
        unknownDestinations := [], allowUnknown := au } =
      .ok ((flatLeaves cfg 0 fs).map (fun info => some ((0 : Nat), info.position))) from htargets]
  dsimp only
  rw [show ([] : Store) ++ [zeroVal [⟨fs, false⟩] (fz + 1) (.strctTy 0)] =
    [(.strct (List.replicate fs.length (.scalar 0)) : GoVal)] by
      rw [List.nil_append, zeroVal_flatStruct fs fz hptrsc]]
  rw [show applyScan [(.strct (List.replicate fs.length (.scalar 0)) : GoVal)]
      ((flatLeaves cfg 0 fs).map (fun info => some ((0 : Nat), info.position))) vals =
      [.strct ((List.replicate fs.length (.scalar 0)).take 0 ++ vals)] from
    applyScan_flat cfg fs 0 _ vals hlen (by simp)]
  simp [regularAfter]

/-!
## Claim C4

Bind, scan, materialize on a record of value fields reproduces the struct
built directly from the row's values.
-/

/-- Claim C4: for any flat record type whose leaf fields are all value
(non-pointer) scalar fields, with a query whose columns are exactly the
type's leaf column names (in order), the traversal produces exactly one leaf
per field, and running the bind phase, the row scan and the materialize phase
yields the struct built directly from the same field values. -/
theorem roundTrip_flat_struct (cfg : MapperCfg) (fs : List GoField) (vals : List GoVal)
    (au : Bool) (fz : Nat)
    (hflat : ∀ f ∈ fs, FlatField f) (hne : fs ≠ [])
    (hnodup : (flatKeys cfg fs).Nodup)
    (hlen : vals.length = fs.length) :
    getMapping [⟨fs, false⟩] cfg (false, 0) = flatLeaves cfg 0 fs ∧
    structRegularRun [⟨fs, false⟩] (fz + 1) (.strctTy 0) false
        (getMapping [⟨fs, false⟩] cfg (false, 0)) "" (flatKeys cfg fs) vals au =
      .ok (.strct vals) := by
  have hm := getMapping_flat cfg fs hne hflat
  exact ⟨hm, by rw [hm]; exact structRegularRun_flat cfg fs vals au fz hflat hnodup hlen⟩

/-- Witness for claim C4 on a two-field record with lower-casing name mapper. -/
theorem roundTrip_flat_struct_witness :
    getMapping [⟨[⟨"ID", "", true, false, false, .scalar⟩,
        ⟨"Name", "", true, false, false, .scalar⟩], false⟩] ⟨".", id, 3⟩
        (false, 0) =
      flatLeaves ⟨".", id, 3⟩ 0
        [⟨"ID", "", true, false, false, .scalar⟩, ⟨"Name", "", true, false, false, .scalar⟩] ∧
    structRegularRun [⟨[⟨"ID", "", true, false, false, .scalar⟩,
        ⟨"Name", "", true, false, false, .scalar⟩], false⟩] (0 + 1) (.strctTy 0) false
        (getMapping [⟨[⟨"ID", "", true, false, false, .scalar⟩,
          ⟨"Name", "", true, false, false, .scalar⟩], false⟩] ⟨".", id, 3⟩
          (false, 0)) ""
        (flatKeys ⟨".", id, 3⟩
          [⟨"ID", "", true, false, false, .scalar⟩, ⟨"Name", "", true, false, false, .scalar⟩])
        [.scalar 2, .scalar 7] false =
      .ok (.strct [.scalar 2, .scalar 7]) :=
  roundTrip_flat_struct ⟨".", id, 3⟩
    [⟨"ID", "", true, false, false, .scalar⟩, ⟨"Name", "", true, false, false, .scalar⟩]
    [.scalar 2, .scalar 7] false 0
    (by decide) (by decide) (by decide) (by decide)

/-!
## Claim C1

No-destination errors: metadata shape of the Row scan path and the Values
recording path, and the allow-unknown success path.
-/

theorem createTargetsGo_first_none {D : Type} :
    ∀ (c : List String) (dests : List (Option D)) (j : Nat),
      j < c.length → dests.getD j none = none → (∀ k, k < j → dests.getD k none ≠ none) →
      createTargetsGo false c dests = .error (.mapping ["no destination", c.getD j ""]) := by
  intro c
  induction c with
  | nil => intro dests j hj _ _; simp at hj
  | cons nm rest ih =>
    intro dests j hj hnone hprev
    cases j with
    | zero =>
      cases dests with
      | nil => simp [createTargetsGo]
      | cons d ds =>
        obtain rfl : d = none := by simpa using hnone
        simp [createTargetsGo]
    | succ j =>
      have h0 : dests.getD 0 none ≠ none := hprev 0 (by omega)
      cases dests with
      | nil => exact absurd rfl h0
      | cons d ds =>
        cases d with
        | none => exact absurd rfl h0
        | some x =>
          simp only [createTargetsGo, List.headD, List.tail]
          rw [ih ds j (by simpa using hj) (by simpa using hnone)
            (fun k hk => by simpa using hprev (k + 1) (by omega))]
          rfl

/-- The Row used in the C1 counterexample: three columns, a destination only
for the first, unknown columns disallowed. -/
def c1Row : Row Addr :=
  { columns := ["id", "extra1", "extra2"]
    scanDestinations := [some (0, [0]), none, none]
    unknownDestinations := []
    allowUnknown := false }

/-- Counterexample to claim C1 as stated: with two query columns matching no
leaf (`extra1` and `extra2` both have no destination), the Row scan path's
mapping error names only the first of them — its metadata does not list
`extra2`. -/
theorem noDestination_lists_first_only_counterexample :
    c1Row.createTargets = .error (.mapping ["no destination", "extra1"]) ∧
    c1Row.scanDestinations.getD 1 none = none ∧
    c1Row.scanDestinations.getD 2 none = none ∧
    c1Row.allowUnknown = false ∧
    "extra2" ∉ ["no destination", "extra1"] :=
  ⟨rfl, rfl, rfl, rfl, by decide⟩

theorem upsertCol_fresh : ∀ (m : List (String × Nat)) (n : String) (i : Nat),
    (∀ p ∈ m, p.1 ≠ n) → upsertCol m n i = m ++ [(n, i)] := by
  intro m
  induction m with
  | nil => intro n i _; rfl
  | cons q m ih =>
    intro n i hfr
    have hq : q.1 ≠ n := hfr q (List.mem_cons_self _ _)
    simp only [upsertCol, if_neg hq, List.cons_append]
    rw [ih n i (fun p hp => hfr p (List.mem_cons_of_mem _ hp))]

theorem foldl_upsert_fresh : ∀ (ps : List (Nat × String)) (acc : List (String × Nat)),
    (ps.map Prod.snd).Nodup → (∀ p ∈ ps, ∀ q ∈ acc, q.1 ≠ p.2) →
    ps.foldl (fun m p => upsertCol m p.2 p.1) acc = acc ++ ps.map (fun p => (p.2, p.1)) := by
  intro ps
  induction ps with
  | nil => intro acc _ _; simp
  | cons p ps ih =>
    intro acc hnd hfr
    have hnd2 : (p.2 :: ps.map Prod.snd).Nodup := by simpa using hnd
    have hnd' := List.nodup_cons.mp hnd2
    simp only [List.foldl_cons]
    rw [upsertCol_fresh acc p.2 p.1 (fun q hq => hfr p (List.mem_cons_self _ _) q hq)]
    rw [ih (acc ++ [(p.2, p.1)]) hnd'.2 ?_]
    · simp
    · intro r hr q hq
      rcases List.mem_append.mp hq with hq1 | hq2
      · exact hfr r (List.mem_cons_of_mem _ hr) q hq1
      · have hq3 : q = (p.2, p.1) := by simpa using hq2
        subst hq3
        intro he
        refine hnd'.1 ?_
        have he' : p.2 = r.2 := he
        rw [he']
        exact List.mem_map_of_mem Prod.snd hr

theorem newValuesColumns_nodup (cs : List String) (hnd : cs.Nodup) :
    newValuesColumns cs = cs.enum.map (fun p => (p.2, p.1)) := by
  unfold newValuesColumns
  rw [foldl_upsert_fresh cs.enum [] (by simpa [List.enum_map_snd] using hnd)
    (by intro p _ q hq; cases hq)]
  rfl

theorem drop_set_succ {α : Type} : ∀ (l : List α) (k : Nat) (a : α),
    (l.set k a).drop (k + 1) = l.drop (k + 1) := by
  intro l
  induction l with
  | nil => intro k a; rfl
  | cons x xs ih =>
    intro k a
    cases k with
    | zero => rfl
    | succ k => simpa [List.set, List.drop] using ih k a

theorem writeMissing (types : List String) :
    ∀ (cs : List String) (k : Nat) (arr : List String), arr.length = k + cs.length →
      ((cs.enumFrom k).map (fun p => ((p.2 : String), (p.1 : Nat)))).foldl
        (fun a q => if types.contains q.1 then a else a.set q.2 q.1) arr =
      arr.take k ++
        (cs.zip (arr.drop k)).map (fun p => if types.contains p.1 then p.2 else p.1) := by
  intro cs
  induction cs with
  | nil =>
    intro k arr hlen
    have hlen0 : arr.length = k := by simpa using hlen
    simp only [List.enumFrom, List.map_nil, List.foldl_nil, List.zip_nil_left,
      List.map_nil, List.append_nil]
    rw [List.take_of_length_le (by omega)]
  | cons nm cs ih =>
    intro k arr hlen
    have hk : k < arr.length := by simp only [List.length_cons] at hlen; omega
    rw [List.drop_eq_getElem_cons hk]
    simp only [List.enumFrom, List.map_cons, List.foldl_cons, List.zip_cons_cons,
      List.map_cons]
    by_cases hc : types.contains nm
    · rw [if_pos hc]
      rw [ih (k + 1) arr (by simp only [List.length_cons] at hlen; omega)]
      rw [if_pos hc]
      have : arr.take (k + 1) = arr.take k ++ [arr.getD k ""] := by
        rw [List.take_succ]
        rw [List.getElem?_eq_getElem hk]
        simp [List.getD, List.getElem?_eq_getElem hk]
      rw [this]
      simp only [List.append_assoc, List.singleton_append]
      rw [show arr.getD k "" = arr.get ⟨k, hk⟩ by simp [List.getD, List.getElem?_eq_getElem hk]]
      rfl
    · rw [if_neg hc]
      rw [ih (k + 1) (arr.set k nm) (by simp only [List.length_set, List.length_cons] at hlen ⊢; omega)]
      rw [if_neg hc]
      rw [take_succ_set arr k nm hk, drop_set_succ arr k nm]
      simp [List.append_assoc]

theorem zip_replicate_pairs {α : Type} : ∀ (cs : List α) (n : Nat) (x : α), cs.length ≤ n →
    cs.zip (List.replicate n x) = cs.map (fun c => (c, x)) := by
  intro cs
  induction cs with
  | nil => intro n x _; simp
  | cons c cs ih =>
    intro n x hle
    cases n with
    | zero => simp at hle
    | succ n =>
      simp only [List.replicate_succ, List.zip_cons_cons, List.map_cons]
      rw [ih n x (by simpa using hle)]

theorem mask_filter (types : List String) : ∀ (cs : List String), (∀ nm ∈ cs, nm ≠ "") →
    ((cs.map (fun nm => if types.contains nm then "" else nm)).filter (fun s => s ≠ "")) =
      cs.filter (fun nm => !types.contains nm) := by
  intro cs
  induction cs with
  | nil => intro _; rfl
  | cons nm cs ih =>
    intro hne
    have hrest := ih (fun x hx => hne x (List.mem_cons_of_mem _ hx))
    rw [List.map_cons, List.filter_cons, List.filter_cons]
    cases hc : types.contains nm with
    | true => simpa using hrest
    | false =>
      have hnm : (decide (nm ≠ "")) = true := by
        simpa using hne nm (List.mem_cons_self _ _)
      simp only [Bool.false_eq_true, if_false, hnm, if_true, Bool.not_false]
      rw [hrest]

theorem findMissingColumns_nodup (cs recorded : List String) (rec au : Bool)
    (hnd : cs.Nodup) (hne : ∀ nm ∈ cs, nm ≠ "") :
    Values.findMissingColumns ⟨newValuesColumns cs, rec, recorded, au⟩ =
      cs.filter (fun nm => !recorded.contains nm) := by
  unfold Values.findMissingColumns
  dsimp only
  rw [newValuesColumns_nodup cs hnd]
  have hlen : (cs.enum.map (fun p => (p.2, p.1))).length = cs.length := by simp
  rw [hlen]
  have henum : cs.enum = cs.enumFrom 0 := rfl
  rw [henum]
  rw [writeMissing recorded cs 0 (List.replicate cs.length "") (by simp)]
  simp only [List.take_zero, List.nil_append, List.drop_zero]
  rw [zip_replicate_pairs cs cs.length "" (by omega)]
  rw [List.map_map]
  rw [show ((fun p => if recorded.contains (Prod.fst p) then (Prod.snd p : String) else Prod.fst p) ∘
      (fun c => (c, ""))) = (fun nm => if recorded.contains nm then "" else nm) from rfl]
  exact mask_filter recorded cs hne

theorem stopRecording_lists_all (cs recorded : List String) (rec : Bool)
    (hnd : cs.Nodup) (hrnd : recorded.Nodup) (hsub : ∀ t ∈ recorded, t ∈ cs)
    (hne : ∀ nm ∈ cs, nm ≠ "")
    (hmiss : cs.filter (fun nm => !recorded.contains nm) ≠ []) :
    Values.stopRecording ⟨newValuesColumns cs, rec, recorded, false⟩ =
      .error (.mapping ("no destination" :: cs.filter (fun nm => !recorded.contains nm))) := by
  obtain ⟨nm0, hnm0c, hnm0r⟩ : ∃ nm0 ∈ cs, nm0 ∉ recorded := by
    cases hm : cs.filter (fun nm => !recorded.contains nm) with
    | nil => exact absurd hm hmiss
    | cons a rest =>
      have ha : a ∈ cs.filter (fun nm => !recorded.contains nm) := by rw [hm]; exact List.mem_cons_self _ _
      have := List.of_mem_filter ha
      exact ⟨a, List.mem_of_mem_filter ha, by simpa using this⟩
  have hcard : recorded.length < cs.length := by
    have hsubf : recorded.toFinset ⊆ cs.toFinset := by
      intro x hx
      exact List.mem_toFinset.mpr (hsub x (List.mem_toFinset.mp hx))
    have hss : recorded.toFinset ⊂ cs.toFinset :=
      (Finset.ssubset_iff_of_subset hsubf).mpr
        ⟨nm0, List.mem_toFinset.mpr hnm0c, fun hx => hnm0r (List.mem_toFinset.mp hx)⟩
    have := Finset.card_lt_card hss
    rwa [List.toFinset_card_of_nodup hrnd, List.toFinset_card_of_nodup hnd] at this
  unfold Values.stopRecording
  rw [if_pos ?_]
  · rw [findMissingColumns_nodup cs recorded rec false hnd hne]
  · have hclen : (newValuesColumns cs).length = cs.length := by
      rw [newValuesColumns_nodup cs hnd]; simp
    simp only [Bool.not_false, Bool.true_and, hclen]
    simp only [decide_eq_true_eq]
    omega

theorem allowUnknown_zero_fields (cfg : MapperCfg) (f1 f2 : GoField) (ex : String)
    (v0 vex : GoVal) (fz : Nat)
    (h1 : FlatField f1) (h2 : FlatField f2)
    (hex1 : keyOfTop cfg f1 ≠ ex) (hex2 : keyOfTop cfg f2 ≠ ex) :
    structRegularRun [⟨[f1, f2], false⟩] (fz + 1) (.strctTy 0) false
        (getMapping [⟨[f1, f2], false⟩] cfg (false, 0)) ""
        [keyOfTop cfg f1, ex] [v0, vex] true =
      .ok (.strct [v0, .scalar 0]) := by
  have hmem : ∀ f ∈ [f1, f2], FlatField f := by
    intro f hf
    rcases List.mem_cons.mp hf with rfl | hf2
    · exact h1
    rcases List.mem_cons.mp hf2 with rfl | hf3
    · exact h2
    cases hf3
  have hm : getMapping [⟨[f1, f2], false⟩] cfg (false, 0) =
      [⟨keyOfTop cfg f1, [0], [], false⟩, ⟨keyOfTop cfg f2, [1], [], false⟩] := by
    rw [getMapping_flat cfg [f1, f2] (by simp) hmem]
    rfl
  have hfilt : filterColumns [keyOfTop cfg f1, ex]
      [⟨keyOfTop cfg f1, [0], [], false⟩, ⟨keyOfTop cfg f2, [1], [], false⟩] "" =
      [⟨keyOfTop cfg f1, [0], [], false⟩] := by
    rw [filterColumns_cons_no_pfx]
    rw [@List.find?_cons_of_pos MapInfo (fun info => info.name == keyOfTop cfg f1)
      ⟨keyOfTop cfg f1, [0], [], false⟩ [⟨keyOfTop cfg f2, [1], [], false⟩] (by simp)]
    dsimp only
    rw [filterColumns_cons_no_pfx]
    rw [@List.find?_cons_of_neg MapInfo (fun info => info.name == ex)
      ⟨keyOfTop cfg f1, [0], [], false⟩ [⟨keyOfTop cfg f2, [1], [], false⟩] (by simp [hex1])]
    rw [@List.find?_cons_of_neg MapInfo (fun info => info.name == ex)
      ⟨keyOfTop cfg f2, [1], [], false⟩ [] (by simp [hex2])]
    rfl
  rw [hm]
  unfold structRegularRun runRow
  dsimp only
  rw [hfilt]
  rw [regularBefore_flat [⟨[f1, f2], false⟩] (fz + 1) (.strctTy 0)
    [⟨keyOfTop cfg f1, [0], [], false⟩] [] (wrapRows Addr [keyOfTop cfg f1, ex] true)
    (by
      intro info hi
      rcases List.mem_cons.mp hi with rfl | h
      · rfl
      · cases h)]
  dsimp only
  simp only [List.length_nil, List.foldl_cons, List.foldl_nil]
  rw [show (wrapRows Addr [keyOfTop cfg f1, ex] true).scheduleScanByNameX (keyOfTop cfg f1)
      ((0 : Nat), [0]) =
      { columns := [keyOfTop cfg f1, ex], scanDestinations := [some (0, [0]), none],
        unknownDestinations := [], allowUnknown := true } by
    unfold Row.scheduleScanByNameX wrapRows
    rw [show findColIdx [keyOfTop cfg f1, ex] (keyOfTop cfg f1) = some 0 by
      unfold findColIdx
      rw [if_pos rfl]]
    rfl]
  rw [if_neg (by simp)]
  rw [show Row.createTargets
      { columns := [keyOfTop cfg f1, ex], scanDestinations := [some (0, [0]), none],
        unknownDestinations := [], allowUnknown := true } =
      .ok [some ((0 : Nat), ([0] : List Nat)), none] from rfl]
  rw [show ([] : Store) ++ [zeroVal [⟨[f1, f2], false⟩] (fz + 1) (.strctTy 0)] =
      [(.strct [.scalar 0, .scalar 0] : GoVal)] by
    rw [List.nil_append,
      zeroVal_flatStruct [f1, f2] fz
        (fun f hf => ⟨(hmem f hf).2.2.1, (hmem f hf).2.2.2.1⟩)]
    rfl]
  rfl

/-- Claim C1 (amended): when unknown columns are disallowed and a query
column matches no leaf, binding fails with a mapping error whose metadata
begins with `"no destination"`; the Row scan path (`createTargets`) names
only the first such column, while the Values recording path
(`stopRecording`) lists every unmatched column in query order; when unknown
columns are allowed, the same bind succeeds and the destination's unmatched
fields are left at their zero value (with the unknown column's scanned value
discarded). -/
theorem noDestination_metadata {D : Type} (r : Row D) (j : Nat)
    (cs recorded : List String) (rec : Bool)
    (cfg : MapperCfg) (f1 f2 : GoField) (ex : String) (v0 vex : GoVal) (fz : Nat) :
    (r.allowUnknown = false → j < r.columns.length → r.scanDestinations.getD j none = none →
      (∀ k, k < j → r.scanDestinations.getD k none ≠ none) →
      r.createTargets = .error (.mapping ["no destination", r.columns.getD j ""])) ∧
    (cs.Nodup → recorded.Nodup → (∀ t ∈ recorded, t ∈ cs) → (∀ nm ∈ cs, nm ≠ "") →
      cs.filter (fun nm => !recorded.contains nm) ≠ [] →
      Values.stopRecording ⟨newValuesColumns cs, rec, recorded, false⟩ =
        .error (.mapping ("no destination" :: cs.filter (fun nm => !recorded.contains nm)))) ∧
    (FlatField f1 → FlatField f2 → keyOfTop cfg f1 ≠ ex → keyOfTop cfg f2 ≠ ex →
      structRegularRun [⟨[f1, f2], false⟩] (fz + 1) (.strctTy 0) false
          (getMapping [⟨[f1, f2], false⟩] cfg (false, 0)) ""
          [keyOfTop cfg f1, ex] [v0, vex] true =
        .ok (.strct [v0, .scalar 0])) := by
  refine ⟨?_, ?_, ?_⟩
  · intro hau hj hnone hprev
    unfold Row.createTargets
    rw [hau]
    exact createTargetsGo_first_none r.columns r.scanDestinations j hj hnone hprev
  · intro hnd hrnd hsub hne hmiss
    exact stopRecording_lists_all cs recorded rec hnd hrnd hsub hne hmiss
  · intro h1 h2 hex1 hex2
    exact allowUnknown_zero_fields cfg f1 f2 ex v0 vex fz h1 h2 hex1 hex2

/-- Witness for claim C1 at a concrete row, recording state and struct run. -/
theorem noDestination_metadata_witness :
    (c1Row.createTargets = .error (.mapping ["no destination", "extra1"])) ∧
    (Values.stopRecording
        ⟨newValuesColumns ["id", "extra1", "extra2"], true, ["id"], false⟩ =
      .error (.mapping ["no destination", "extra1", "extra2"])) ∧
    (structRegularRun
        [⟨[⟨"ID", "", true, false, false, .scalar⟩,
           ⟨"Name", "", true, false, false, .scalar⟩], false⟩] (0 + 1) (.strctTy 0) false
        (getMapping [⟨[⟨"ID", "", true, false, false, .scalar⟩,
           ⟨"Name", "", true, false, false, .scalar⟩], false⟩] ⟨".", id, 3⟩ (false, 0)) ""
        [keyOfTop ⟨".", id, 3⟩ ⟨"ID", "", true, false, false, .scalar⟩, "extra"]
        [.scalar 5, .scalar 9] true =
      .ok (.strct [.scalar 5, .scalar 0])) := by
  have h := noDestination_metadata c1Row 1 ["id", "extra1", "extra2"] ["id"] true
    ⟨".", id, 3⟩ ⟨"ID", "", true, false, false, .scalar⟩
    ⟨"Name", "", true, false, false, .scalar⟩ "extra" (.scalar 5) (.scalar 9) 0
  refine ⟨?_, ?_, ?_⟩
  · exact h.1 rfl (by decide) rfl (by decide)
  · exact h.2.1 (by decide) (by decide) (by decide) (by decide) (by decide)
  · exact h.2.2 (by decide) (by decide) (by decide) (by decide)

/-!
## Claim C6

Leaf naming: exclusion, tag/identifier mapping, anonymous flattening and
named nesting, characterized on two-level struct types.
-/

/-- A field the traversal includes: exported and not tagged `"-"`. -/
def isIncluded (f : GoField) : Bool :=
  f.exported && !(tagOf f == "-")

/-- The name a field contributes, as the (amended) specification words it: an
anonymous field keeps the prefix unchanged; a named field appends (after the
separator, when a prefix exists) the name-mapping function applied to its
explicit tag when present, else to its identifier. -/
def specFieldName (cfg : MapperCfg) (pfx : String) (f : GoField) : String :=
  if f.anonymous then pfx
  else
    (if pfx = "" then "" else pfx ++ cfg.columnSeparator) ++
      cfg.fieldMapperFn (if tagOf f = "" then f.fname else tagOf f)

/-- Expected leaves of a struct of scalar fields under a given prefix,
starting at field index `j`: one leaf per included field. -/
def scalarLeaves (cfg : MapperCfg) (pfx : String) (position : List Nat) :
    Nat → List GoField → List MapInfo
  | _, [] => []
  | j, g :: gs =>
    if isIncluded g then
      ⟨specFieldName cfg pfx g, position ++ [j], [], false⟩ ::
        scalarLeaves cfg pfx position (j + 1) gs
    else scalarLeaves cfg pfx position (j + 1) gs

/-- Expected leaves of a two-level type (outer fields scalar or referencing
the inner struct), per the (amended) specification: excluded fields
contribute nothing; a scalar field one leaf under its own name; a composite
field its sub-leaves under its name as prefix (the empty prefix when it is
anonymous, flattening the sub-fields). -/
def specTwoLevelFrom (cfg : MapperCfg) (inner : List GoField) :
    Nat → List GoField → List MapInfo
  | _, [] => []
  | i, f :: fs =>
    (if isIncluded f then
      match f.base with
      | .scalar => [⟨specFieldName cfg "" f, [i], [], false⟩]
      | .strct _ => scalarLeaves cfg (specFieldName cfg "" f) [i] 0 inner
    else []) ++ specTwoLevelFrom cfg inner (i + 1) fs

theorem specFieldName_eq (cfg : MapperCfg) (pfx : String) (f : GoField) :
    (if f.anonymous then pfx
     else
       pfx ++ (if pfx ≠ "" then cfg.columnSeparator else "") ++
         cfg.fieldMapperFn (if tagOf f ≠ "" then tagOf f else f.fname)) =
      specFieldName cfg pfx f := by
  unfold specFieldName
  by_cases ha : f.anonymous
  · simp [ha]
  · rw [if_neg ha, if_neg ha]
    by_cases hp : pfx = ""
    · subst hp
      rw [if_neg (by simp), if_pos rfl]
      by_cases ht : tagOf f = ""
      · rw [if_neg (by simp [ht]), if_pos ht]; rfl
      · rw [if_pos ht, if_neg ht]; rfl
    · rw [if_pos (by simpa using hp), if_neg hp]
      by_cases ht : tagOf f = ""
      · rw [if_neg (by simp [ht]), if_pos ht]
      · rw [if_pos ht, if_neg ht]

theorem goFields_scalar (env : Env) (cfg : MapperCfg) (fuel : Nat) (position : List Nat) :
    ∀ (gs : List GoField) (j : Nat) (pfx : String) (v : TypeRef → Nat)
      (m : List MapInfo) (hEx : Bool),
      (∀ g ∈ gs, g.isPtr = false ∧ g.base = .scalar) →
      goFields env cfg fuel gs j pfx v m [] position hEx =
        some (m ++ scalarLeaves cfg pfx position j gs, hEx || gs.any isIncluded) := by
  intro gs
  induction gs with
  | nil => intro j pfx v m hEx _; simp [goFields, scalarLeaves]
  | cons g gs ih =>
    intro j pfx v m hEx hsc
    obtain ⟨hptr, hbase⟩ := hsc g (List.mem_cons_self _ _)
    have htail : ∀ x ∈ gs, x.isPtr = false ∧ x.base = .scalar :=
      fun x hx => hsc x (List.mem_cons_of_mem _ hx)
    by_cases hexp : g.exported = true
    · by_cases htag : tagOf g = "-"
      · have hni : isIncluded g = false := by simp [isIncluded, htag]
        rw [goFields]
        rw [if_pos (by simp [hexp, htag])]
        rw [ih (j + 1) pfx v m hEx htail]
        rw [scalarLeaves, if_neg (by simp [hni])]
        simp [List.any_cons, hni]
      · have hi : isIncluded g = true := by simp [isIncluded, hexp, htag]
        rw [goFields]
        rw [if_neg (by simp [hexp, htag])]
        simp only [hptr, hbase, Bool.false_eq_true, if_false]
        rw [ih (j + 1) pfx v _ true htail]
        rw [scalarLeaves, if_pos hi]
        rw [specFieldName_eq cfg pfx g]
        simp [List.any_cons, hi, List.append_assoc]
    · have hni : isIncluded g = false := by simp [isIncluded, hexp]
      rw [goFields]
      rw [if_pos (by simp [hexp])]
      rw [ih (j + 1) pfx v m hEx htail]
      rw [scalarLeaves, if_neg (by simp [hni])]
      simp [List.any_cons, hni]

theorem setMappings_scalar_struct (env : Env) (cfg : MapperCfg) (fuel : Nat)
    (tref : TypeRef) (pfx : String) (v : TypeRef → Nat) (m : List MapInfo)
    (position : List Nat) (flds : List GoField)
    (hv : v tref ≤ cfg.maxDepth)
    (hst : structOf env tref.2 = ⟨flds, false⟩)
    (hsc : ∀ g ∈ flds, g.isPtr = false ∧ g.base = .scalar)
    (hany : flds.any isIncluded = true) :
    setMappings env cfg (fuel + 1) tref pfx v m [] position =
      some (m ++ scalarLeaves cfg pfx position 0 flds) := by
  rw [setMappings]
  rw [if_neg (by omega)]
  dsimp only
  rw [hst]
  dsimp only
  rw [if_neg (by simp)]
  rw [goFields_scalar env cfg fuel position flds 0 pfx (bumpVisit v tref) m false hsc]
  dsimp only
  rw [if_pos (by simp [hany])]

theorem goFields_two_level (env : Env) (cfg : MapperCfg) (fuel : Nat) (innerId : Nat)
    (inner : List GoField)
    (hst : structOf env innerId = ⟨inner, false⟩)
    (hany : inner.any isIncluded = true) :
    ∀ (fs : List GoField) (i : Nat) (v : TypeRef → Nat) (m : List MapInfo) (hEx : Bool),
      (∀ f ∈ fs, f.isPtr = false ∧ (f.base = .scalar ∨ f.base = .strct innerId)) →
      (∀ g ∈ inner, g.isPtr = false ∧ g.base = .scalar) →
      v (false, innerId) ≤ cfg.maxDepth →
      goFields env cfg (fuel + 1) fs i "" v m [] [] hEx =
        some (m ++ specTwoLevelFrom cfg inner i fs, hEx || fs.any isIncluded) := by
  intro fs
  induction fs with
  | nil => intro i v m hEx _ _ _; simp [goFields, specTwoLevelFrom]
  | cons f fs ih =>
    intro i v m hEx hok hinner hv
    obtain ⟨hptr, hbase⟩ := hok f (List.mem_cons_self _ _)
    have htail : ∀ x ∈ fs, x.isPtr = false ∧ (x.base = .scalar ∨ x.base = .strct innerId) :=
      fun x hx => hok x (List.mem_cons_of_mem _ hx)
    by_cases hexp : f.exported = true
    · by_cases htag : tagOf f = "-"
      · have hni : isIncluded f = false := by simp [isIncluded, htag]
        rw [goFields, if_pos (by simp [hexp, htag])]
        rw [ih (i + 1) v m hEx htail hinner hv]
        rw [specTwoLevelFrom, if_neg (by simp [hni])]
        simp [List.any_cons, hni]
      · have hi : isIncluded f = true := by simp [isIncluded, hexp, htag]
        rcases hbase with hb | hb
        · rw [goFields, if_neg (by simp [hexp, htag])]
          simp only [hptr, hb, Bool.false_eq_true, if_false]
          rw [ih (i + 1) v _ true htail hinner hv]
          rw [specTwoLevelFrom, if_pos hi]
          simp only [hb]
          rw [specFieldName_eq cfg "" f]
          simp [List.any_cons, hi, List.append_assoc]
        · rw [goFields, if_neg (by simp [hexp, htag])]
          simp only [hptr, hb, Bool.false_eq_true, if_false]
          rw [setMappings_scalar_struct env cfg fuel (false, innerId) _ v m ([] ++ [i])
            inner hv hst hinner hany]
          dsimp only
          rw [ih (i + 1) v _ true htail hinner hv]
          rw [specTwoLevelFrom, if_pos hi]
          simp only [hb]
          rw [specFieldName_eq cfg "" f]
          simp [List.any_cons, hi, List.append_assoc]
    · have hni : isIncluded f = false := by simp [isIncluded, hexp]
      rw [goFields, if_pos (by simp [hexp])]
      rw [ih (i + 1) v m hEx htail hinner hv]
      rw [specTwoLevelFrom, if_neg (by simp [hni])]
      simp [List.any_cons, hni]


/-- Claim C6 (amended): on a two-level destination type — outer fields either
scalar or referencing an all-scalar inner struct, both levels with at least
one included field — introspection produces exactly the leaves the (amended)
specification describes: a field tagged `"-"` or unexported is excluded; a
field's name is the name-mapping function applied to its explicit tag when
present, else to its identifier; an anonymous field's sub-fields flatten
under the unchanged prefix; a named composite field's sub-fields live under
its own name plus separator. -/
theorem leaf_naming_two_level (cfg : MapperCfg) (outer inner : List GoField)
    (houter : ∀ f ∈ outer, f.isPtr = false ∧ (f.base = .scalar ∨ f.base = .strct 1))
    (hinner : ∀ g ∈ inner, g.isPtr = false ∧ g.base = .scalar)
    (ho : outer.any isIncluded = true)
    (hi : inner.any isIncluded = true) :
    getMapping [⟨outer, false⟩, ⟨inner, false⟩] cfg (false, 0) =
      specTwoLevelFrom cfg inner 0 outer := by
  have hbf : bigFuel [⟨outer, false⟩, ⟨inner, false⟩] cfg = (4 * cfg.maxDepth + 3) + 1 + 1 := by
    simp only [bigFuel, List.length_cons, List.length_nil]
    omega
  rw [getMapping, hbf]
  rw [setMappings]
  rw [if_neg (by simp)]
  dsimp only
  rw [show structOf [(⟨outer, false⟩ : GoStruct), ⟨inner, false⟩] 0 = ⟨outer, false⟩ from rfl]
  dsimp only
  rw [if_neg (by simp)]
  rw [goFields_two_level [⟨outer, false⟩, ⟨inner, false⟩] cfg (4 * cfg.maxDepth + 3) 1
    inner rfl hi outer 0 (bumpVisit (fun _ => 0) (false, 0)) [] false houter hinner
    (by simp [bumpVisit])]
  dsimp only
  rw [if_pos (by simp [ho])]
  simp



/-- Claim C6 counterexample to the original wording: the source applies the
configured name-mapping function to a field's explicit tag as well, not only
to its identifier.  With a mapping function that marks its argument, a field
tagged `"ID"` is bound as `"c_ID"`, not as the raw tag `"ID"`. -/
theorem tag_mapped_counterexample :
    getMapping [⟨[⟨"Foo", "ID", true, false, false, .scalar⟩], false⟩]
        ⟨".", (fun s => "c_" ++ s), 3⟩ (false, 0) =
      [⟨"c_ID", [0], [], false⟩] ∧ ("c_ID" : String) ≠ "ID" := by
  constructor
  · have hbf : bigFuel [⟨[⟨"Foo", "ID", true, false, false, .scalar⟩], false⟩]
        (⟨".", (fun s => "c_" ++ s), 3⟩ : MapperCfg) = 8 + 1 := rfl
    rw [getMapping, hbf]
    rw [setMappings_scalar_struct [⟨[⟨"Foo", "ID", true, false, false, .scalar⟩], false⟩]
      ⟨".", (fun s => "c_" ++ s), 3⟩ 8 (false, 0) "" (fun _ => 0) [] []
      [⟨"Foo", "ID", true, false, false, .scalar⟩] (Nat.zero_le _) rfl
      (by decide) (by decide)]
    rfl
  · decide

/-- Witness for claim C6 on a concrete two-level type: an identity mapping
function, an outer struct with a tagged scalar field, a field tagged `"-"`,
an anonymous inner-struct field and a named inner-struct field, and an inner
struct with one included field and one unexported field.  The excluded and
unexported fields vanish, the anonymous branch flattens with no extra
segment, and the named branch nests under `info.`. -/
theorem leaf_naming_two_level_witness :
    getMapping
        [⟨[⟨"ID", "id", true, false, false, .scalar⟩,
           ⟨"Secret", "-", true, false, false, .scalar⟩,
           ⟨"Embedded", "", true, true, false, .strct 1⟩,
           ⟨"Info", "info", true, false, false, .strct 1⟩], false⟩,
         ⟨[⟨"CreatedAt", "created_at", true, false, false, .scalar⟩,
           ⟨"hidden", "", false, false, false, .scalar⟩], false⟩]
        ⟨".", id, 3⟩ (false, 0) =
      [⟨"id", [0], [], false⟩, ⟨"created_at", [2, 0], [], false⟩,
       ⟨"info.created_at", [3, 0], [], false⟩] := by
  have h := leaf_naming_two_level ⟨".", id, 3⟩
      [⟨"ID", "id", true, false, false, .scalar⟩,
       ⟨"Secret", "-", true, false, false, .scalar⟩,
       ⟨"Embedded", "", true, true, false, .strct 1⟩,
       ⟨"Info", "info", true, false, false, .strct 1⟩]
      [⟨"CreatedAt", "created_at", true, false, false, .scalar⟩,
       ⟨"hidden", "", false, false, false, .scalar⟩]
      (by decide) (by decide) (by decide) (by decide)
  exact h.trans (by decide)

end Scan
